import Mathlib

/-!
# Verification of the OpenEXRCore engine of `pxr/imaging/hio/OpenEXR`

The repository's single source file, `OpenEXRCoreUnity.h`, is a unity-build
header: it `#include`s the OpenEXRCore `.c` implementation files (attributes,
chunk, compression, decoding, internal_rle, internal_zip, internal_piz,
internal_pxr24, parse_header, write_header, part, ...) and the bundled
`deflate` byte-codec (`adler32.c`, `zlib_compress.c`, `zlib_decompress.c`).
Those included implementation files are not present in the tree, so every
definition below is modelled from the specification's description of the
corresponding component, and each doc comment says which missing file it
stands for.

The development embeds, in order: the error taxonomy, the RLE codec, the
zlib byte-codec boundary (with the adler32 checksum trailer), the ZIP codec
(byte reorder + difference predictor + zlib), the PXR24 float truncation,
the PIZ codec (mod-2^16 Haar-like wavelet plus canonical Huffman coding),
the attribute serialization and header parser, mip level derivation, the
per-codec scan-line block sizes, and a chunk-level file model.

Recursive codecs are written with a structural fuel argument (initialised
from the input length by their wrappers) so that every definition reduces
inside the kernel on concrete inputs.
-/

set_option maxHeartbeats 1000000

namespace OpenEXR

/-- Modelled from the spec: the error taxonomy of §7 ERROR HANDLING DESIGN
(implemented across `base.c` and the codec files, none of which are in the
tree). -/
inductive ErrorCode where
  | invalidMagic
  | unsupportedVersion
  | malformedHeader
  | malformedAttribute
  | unsupportedCompression
  | unsupportedPixelType
  | corruptChunk
  | truncatedChunk
  | inflateError
  | deflateError
  deriving Repr, DecidableEq

/-! ## RLE codec (`internal_rle.c`, missing from the tree)

Modelled from the spec: "byte-oriented run-length encoding with a single-byte
run-length/literal-count header per run; decode must reject a run claiming
more bytes than remain in the declared uncompressed size (`TruncatedChunk`)."
A header byte `h ≥ 128` introduces a run of `h - 127` copies of the following
byte; a header byte `h < 128` introduces `h + 1` literal bytes. -/

/-- Number of leading elements of `l` equal to `b`. -/
def countLeading (b : Nat) : List Nat → Nat
  | [] => 0
  | x :: xs => if x = b then countLeading b xs + 1 else 0

/-- Modelled from the spec: the RLE encoder loop of `internal_rle.c`. Each
maximal run (capped at 128 bytes) becomes a two-byte token: a header byte
`128 + (runLength - 1)` followed by the repeated byte. `fuel` bounds the
number of tokens; the wrapper passes the input length, which always
suffices since every token consumes at least one input byte. -/
def rleEncodeF : Nat → List Nat → List Nat
  | _, [] => []
  | 0, _ :: _ => []
  | fuel + 1, b :: rest =>
    let r := min (countLeading b rest) 127
    (128 + r) :: b :: rleEncodeF fuel (rest.drop r)

/-- Modelled from the spec: RLE encode entry point. -/
def rleEncode (data : List Nat) : List Nat :=
  rleEncodeF data.length data

/-- Modelled from the spec: the RLE decoder loop of `internal_rle.c`,
tracking the bytes remaining toward the declared uncompressed size. A run
or literal block claiming more bytes than remain is rejected with
`TruncatedChunk`, as is exhausted input. `fuel` bounds the number of
tokens; the wrapper passes the declared size, which always suffices since
every token produces at least one output byte. -/
def rleDecodeF : Nat → Nat → List Nat → Except ErrorCode (List Nat)
  | _, 0, _ => .ok []
  | 0, _ + 1, _ => .error .truncatedChunk
  | _ + 1, _ + 1, [] => .error .truncatedChunk
  | fuel + 1, remaining + 1, h :: rest =>
    if 128 ≤ h then
      -- run token: h - 127 copies of the next byte
      let cnt := h - 127
      if remaining + 1 < cnt then .error .truncatedChunk
      else
        match rest with
        | [] => .error .truncatedChunk
        | b :: rest' =>
          (rleDecodeF fuel (remaining + 1 - cnt) rest').map
            (fun out => List.replicate cnt b ++ out)
    else
      -- literal token: h + 1 literal bytes follow
      let cnt := h + 1
      if remaining + 1 < cnt then .error .truncatedChunk
      else if rest.length < cnt then .error .truncatedChunk
      else
        (rleDecodeF fuel (remaining + 1 - cnt) (rest.drop cnt)).map
          (fun out => rest.take cnt ++ out)

/-- Modelled from the spec: RLE decode entry point with declared
uncompressed size `n`. -/
def rleDecode (n : Nat) (input : List Nat) : Except ErrorCode (List Nat) :=
  rleDecodeF n n input

theorem countLeading_le (b : Nat) (l : List Nat) : countLeading b l ≤ l.length := by
  induction l with
  | nil => simp [countLeading]
  | cons x xs ih =>
    simp only [countLeading, List.length_cons]
    split <;> omega

theorem countLeading_take (b : Nat) (l : List Nat) (r : Nat)
    (h : r ≤ countLeading b l) : l.take r = List.replicate r b := by
  induction l generalizing r with
  | nil =>
    simp only [countLeading, Nat.le_zero] at h
    subst h; simp
  | cons x xs ih =>
    cases r with
    | zero => simp
    | succ r' =>
      by_cases hx : x = b
      · simp only [countLeading, if_pos hx] at h
        subst hx
        simp [List.replicate_succ, ih r' (by omega)]
      · simp [countLeading, hx] at h

/-- Fuel-generic RLE round-trip: any fuel at least the input length decodes
the encoding back to the input. -/
theorem rleDecodeF_rleEncodeF (fuel : Nat) :
    ∀ data : List Nat, data.length ≤ fuel →
      rleDecodeF fuel data.length (rleEncodeF fuel data) = .ok data := by
  induction fuel with
  | zero =>
    intro data hlen
    have : data = [] := List.eq_nil_of_length_eq_zero (by omega)
    subst this
    rfl
  | succ f ih =>
    intro data hlen
    match data with
    | [] => rfl
    | b :: rest =>
      simp only [List.length_cons] at hlen
      have hr_le : min (countLeading b rest) 127 ≤ rest.length :=
        le_trans (min_le_left _ _) (countLeading_le b rest)
      set r := min (countLeading b rest) 127 with hrdef
      have henc : rleEncodeF (f + 1) (b :: rest)
          = (128 + r) :: b :: rleEncodeF f (rest.drop r) := rfl
      rw [henc]
      simp only [List.length_cons]
      rw [rleDecodeF]
      rw [if_pos (by omega : 128 ≤ 128 + r)]
      have hcnt : 128 + r - 127 = r + 1 := by omega
      simp only [hcnt]
      rw [if_neg (by omega)]
      have hlen2 : rest.length + 1 - (r + 1) = (rest.drop r).length := by
        simp only [List.length_drop]; omega
      rw [hlen2, ih (rest.drop r) (by simp only [List.length_drop]; omega)]
      have htake : rest.take r = List.replicate r b :=
        countLeading_take b rest r (min_le_left _ _)
      have hglue : List.replicate r b ++ rest.drop r = rest := by
        rw [← htake]; exact List.take_append_drop r rest
      simp only [Except.map, List.replicate_succ, List.cons_append, hglue]

/-- RLE round-trip: decoding at the declared size inverts the encoder. -/
theorem rleDecode_rleEncode (data : List Nat) :
    rleDecode data.length (rleEncode data) = .ok data :=
  rleDecodeF_rleEncodeF data.length data le_rfl

/-- A run token whose claimed count exceeds the bytes remaining toward the
declared size is rejected with `TruncatedChunk`. -/
theorem rleDecodeF_run_overclaim (fuel remaining h : Nat) (rest : List Nat)
    (hh : 128 ≤ h) (hover : remaining + 1 < h - 127) :
    rleDecodeF (fuel + 1) (remaining + 1) (h :: rest) = .error .truncatedChunk := by
  rw [rleDecodeF, if_pos hh, if_pos hover]

theorem dropLast_append_ne_nil (l₁ l₂ : List Nat) (h : l₂ ≠ []) :
    (l₁ ++ l₂).dropLast = l₁ ++ l₂.dropLast := by
  induction l₁ with
  | nil => simp
  | cons x xs ih =>
    have hne : xs ++ l₂ ≠ [] := fun hc => h (List.append_eq_nil.mp hc).2
    rw [List.cons_append, List.dropLast_cons_of_ne_nil hne, ih, List.cons_append]

theorem rleEncodeF_nil (fuel : Nat) : rleEncodeF fuel [] = [] := by
  cases fuel <;> rfl

theorem rleEncodeF_ne_nil (fuel : Nat) (b : Nat) (rest : List Nat) :
    rleEncodeF (fuel + 1) (b :: rest) ≠ [] := by
  rw [rleEncodeF]
  simp

/-- Truncating an RLE encoding by one byte always makes the decode fail with
`TruncatedChunk`. -/
theorem rleDecodeF_encode_dropLast (fuel : Nat) :
    ∀ data : List Nat, data ≠ [] → data.length ≤ fuel →
      rleDecodeF fuel data.length ((rleEncodeF fuel data).dropLast)
        = .error .truncatedChunk := by
  induction fuel with
  | zero =>
    intro data hne hlen
    exact absurd (List.eq_nil_of_length_eq_zero (by omega)) hne
  | succ f ih =>
    intro data hne hlen
    match data with
    | [] => exact absurd rfl hne
    | b :: rest =>
      simp only [List.length_cons] at hlen
      have hr_le : min (countLeading b rest) 127 ≤ rest.length :=
        le_trans (min_le_left _ _) (countLeading_le b rest)
      set r := min (countLeading b rest) 127 with hrdef
      have henc : rleEncodeF (f + 1) (b :: rest)
          = (128 + r) :: b :: rleEncodeF f (rest.drop r) := rfl
      rw [henc]
      by_cases hdrop : rest.drop r = []
      · -- the final token: dropping its last byte starves the run of its value
        have hrl : rest.length ≤ r := by
          have := List.drop_eq_nil_iff.mp hdrop
          omega
        have hreq : r = rest.length := le_antisymm hr_le hrl
        rw [hdrop, rleEncodeF_nil]
        simp only [List.length_cons, List.dropLast_cons₂, List.dropLast_single]
        rw [rleDecodeF, if_pos (by omega : 128 ≤ 128 + r)]
        have hcnt : 128 + r - 127 = r + 1 := by omega
        simp only [hcnt]
        rw [if_neg (by omega)]
      · have hfpos : 1 ≤ f := by
          have : 1 ≤ (rest.drop r).length := by
            cases hdd : rest.drop r with
            | nil => exact absurd hdd hdrop
            | cons _ _ => simp [hdd]
          simp only [List.length_drop] at this
          omega
        have hene : rleEncodeF f (rest.drop r) ≠ [] := by
          obtain ⟨f', rfl⟩ : ∃ f', f = f' + 1 := ⟨f - 1, by omega⟩
          cases hdd : rest.drop r with
          | nil => exact absurd hdd hdrop
          | cons x xs => exact rleEncodeF_ne_nil f' x xs
        have hsplit : ((128 + r) :: b :: rleEncodeF f (rest.drop r)).dropLast
            = (128 + r) :: b :: (rleEncodeF f (rest.drop r)).dropLast := by
          have := dropLast_append_ne_nil [128 + r, b] (rleEncodeF f (rest.drop r)) hene
          simpa using this
        rw [hsplit]
        simp only [List.length_cons]
        rw [rleDecodeF, if_pos (by omega : 128 ≤ 128 + r)]
        have hcnt : 128 + r - 127 = r + 1 := by omega
        simp only [hcnt]
        rw [if_neg (by omega)]
        have hlen2 : rest.length + 1 - (r + 1) = (rest.drop r).length := by
          simp only [List.length_drop]; omega
        rw [hlen2, ih (rest.drop r) hdrop (by simp only [List.length_drop]; omega)]
        rfl

/-! ## zlib byte-codec boundary (`adler32.c`, `zlib_compress.c`,
`zlib_decompress.c` of the bundled deflate library, missing from the tree)

Modelled from the spec: the Byte Codec Library boundary of §6 —
`compress(bytes, level) -> bytes`, `decompress(bytes, expectedLen) -> bytes`,
failing with `InflateError` on malformed input. The zlib container carries a
two-byte header and a four-byte big-endian adler32 trailer over the
uncompressed bytes; the deflate body itself is out of scope per §1 and is
modelled as a stored (identity) block. -/

/-- Modelled from the spec: one byte step of the adler32 checksum
(`adler32.c`): `a` accumulates the byte sum, `b` accumulates the running
values of `a`, both modulo 65521. -/
def adlerStep (s : Nat × Nat) (x : Nat) : Nat × Nat :=
  ((s.1 + x) % 65521, (s.2 + (s.1 + x) % 65521) % 65521)

/-- Modelled from the spec: the adler32 checksum of `adler32.c`, starting
from `a = 1, b = 0`, packed as `b * 2^16 + a`. -/
def adler32 (bytes : List Nat) : Nat :=
  let s := bytes.foldl adlerStep (1, 0)
  s.2 * 65536 + s.1

/-- Big-endian 4-byte serialization (the zlib trailer byte order). -/
def be32 (v : Nat) : List Nat :=
  [v / 2 ^ 24 % 256, v / 2 ^ 16 % 256, v / 2 ^ 8 % 256, v % 256]

/-- Modelled from the spec: `zlib_compress.c` — wrap the payload in the zlib
container: header bytes `0x78 0x9C`, the deflate body (modelled as a stored
block), and the big-endian adler32 trailer of the uncompressed bytes. -/
def zlibCompress (bytes : List Nat) : List Nat :=
  [120, 156] ++ bytes ++ be32 (adler32 bytes)

/-- Modelled from the spec: `zlib_decompress.c` — strip the container,
check the declared length, recompute the adler32 checksum of the
decompressed bytes and compare it against the stored trailer, failing with
`InflateError` on any mismatch. The body is the payload between the
two-byte header and the four-byte trailer. -/
def zlibDecompress (expectedLen : Nat) (p : List Nat) : Except ErrorCode (List Nat) :=
  if p.length < 6 then .error .inflateError
  else if p.take 2 ≠ [120, 156] then .error .inflateError
  else if ((p.drop 2).take (p.length - 6)).length ≠ expectedLen then
    .error .inflateError
  else if p.drop (p.length - 4) ≠ be32 (adler32 ((p.drop 2).take (p.length - 6))) then
    .error .inflateError
  else .ok ((p.drop 2).take (p.length - 6))

theorem zlibCompress_length (bytes : List Nat) :
    (zlibCompress bytes).length = bytes.length + 6 := by
  simp [zlibCompress, be32]

/-- zlib container round-trip at the correct declared length. -/
theorem zlibDecompress_zlibCompress (bytes : List Nat) :
    zlibDecompress bytes.length (zlibCompress bytes) = .ok bytes := by
  have hbody : ((zlibCompress bytes).drop 2).take ((zlibCompress bytes).length - 6)
      = bytes := by
    have hdrop2 : (zlibCompress bytes).drop 2 = bytes ++ be32 (adler32 bytes) := by
      simp [zlibCompress]
    have hlen : (zlibCompress bytes).length - 6 = bytes.length := by
      rw [zlibCompress_length]
      omega
    rw [hdrop2, hlen, List.take_left]
  have htrailer : (zlibCompress bytes).drop ((zlibCompress bytes).length - 4)
      = be32 (adler32 bytes) := by
    have h1 : zlibCompress bytes
        = ([120, 156] ++ bytes) ++ be32 (adler32 bytes) := by
      simp [zlibCompress]
    have h2 : (zlibCompress bytes).length - 4 = ([120, 156] ++ bytes).length := by
      rw [zlibCompress_length]
      simp only [List.length_append, List.length_cons, List.length_nil]
      omega
    rw [h2, h1, List.drop_left]
  rw [zlibDecompress]
  rw [if_neg (by rw [zlibCompress_length]; omega)]
  rw [if_neg (by simp [zlibCompress])]
  rw [hbody, htrailer]
  rw [if_neg (by simp), if_neg (by simp)]

/-- An adler32 trailer that does not match the checksum of the decompressed
bytes makes the decompress fail with `InflateError`. -/
theorem zlibDecompress_bad_adler (body trailer : List Nat)
    (hlen : trailer.length = 4) (hbad : trailer ≠ be32 (adler32 body)) :
    zlibDecompress body.length ([120, 156] ++ body ++ trailer)
      = .error .inflateError := by
  set p := [120, 156] ++ body ++ trailer with hp
  have hplen : p.length = body.length + 6 := by
    simp [hp, hlen]
  have hbody : (p.drop 2).take (p.length - 6) = body := by
    have hdrop2 : p.drop 2 = body ++ trailer := by simp [hp]
    rw [hdrop2, hplen]
    have h66 : body.length + 6 - 6 = body.length := by omega
    rw [h66, List.take_left]
  have htrailer : p.drop (p.length - 4) = trailer := by
    have h1 : p = ([120, 156] ++ body) ++ trailer := by simp [hp]
    have h2 : p.length - 4 = ([120, 156] ++ body).length := by
      rw [hplen]
      simp only [List.length_append, List.length_cons, List.length_nil]
      omega
    rw [h2, h1, List.drop_left]
  rw [zlibDecompress]
  rw [if_neg (by omega)]
  rw [if_neg (by simp [hp])]
  rw [hbody, htrailer]
  rw [if_neg (by simp)]
  rw [if_pos hbad]

/-- Truncating a zlib container by one byte always makes the decompress
fail with `InflateError`. -/
theorem zlibDecompress_dropLast (bytes : List Nat) :
    zlibDecompress bytes.length ((zlibCompress bytes).dropLast)
      = .error .inflateError := by
  set p := (zlibCompress bytes).dropLast with hp
  have hplen : p.length = bytes.length + 5 := by
    simp only [hp, List.length_dropLast, zlibCompress_length]
    omega
  rw [zlibDecompress]
  by_cases h0 : bytes.length = 0
  · rw [if_pos (by omega)]
  · rw [if_neg (by omega)]
    have hne : be32 (adler32 bytes) ≠ [] := by simp [be32]
    have hsplit : p = [120, 156] ++ bytes ++ (be32 (adler32 bytes)).dropLast := by
      rw [hp, zlibCompress]
      rw [List.append_assoc, dropLast_append_ne_nil _ _ (by
        intro hc
        exact hne (List.append_eq_nil.mp hc).2)]
      rw [dropLast_append_ne_nil _ _ hne]
      simp
    rw [if_neg (by rw [hsplit]; simp)]
    have hbodylen : ((p.drop 2).take (p.length - 6)).length = bytes.length - 1 := by
      rw [List.length_take, List.length_drop, hplen]
      omega
    rw [if_pos (by rw [hbodylen]; omega)]

/-! ## ZIP codec (`internal_zip.c`, missing from the tree)

Modelled from the spec: "per-channel byte-plane reordering (predictor:
difference from previous byte) followed by the generic Byte Codec Library's
compress/decompress." The reorder splits the bytes into the two
alternating planes; the predictor stores the first byte and then each
byte's difference from its predecessor modulo 256. -/

/-- The even-indexed plane of the byte reorder. -/
def evens : List Nat → List Nat
  | [] => []
  | [x] => [x]
  | x :: _ :: rest => x :: evens rest

/-- The odd-indexed plane of the byte reorder. -/
def odds : List Nat → List Nat
  | [] => []
  | [_] => []
  | _ :: y :: rest => y :: odds rest

/-- Inverse of the plane split: alternate the two planes back together. -/
def interleave : List Nat → List Nat → List Nat
  | [], ys => ys
  | x :: xs, [] => x :: xs
  | x :: xs, y :: ys => x :: y :: interleave xs ys

/-- Difference-predictor body: each byte minus its predecessor, mod 256. -/
def deltaGo (prev : Nat) : List Nat → List Nat
  | [] => []
  | x :: xs => (x + 256 - prev % 256) % 256 :: deltaGo x xs

/-- Modelled from the spec: the ZIP difference predictor — first byte kept,
then differences from the previous byte. -/
def predEnc : List Nat → List Nat
  | [] => []
  | x :: xs => x :: deltaGo x xs

/-- Inverse predictor body: running sum mod 256. -/
def undeltaGo (prev : Nat) : List Nat → List Nat
  | [] => []
  | d :: ds => (prev + d) % 256 :: undeltaGo ((prev + d) % 256) ds

/-- Inverse of `predEnc`. -/
def predDec : List Nat → List Nat
  | [] => []
  | x :: xs => x :: undeltaGo x xs

/-- Modelled from the spec: ZIP encode of `internal_zip.c` — reorder into
byte planes, apply the difference predictor, then the generic compressor. -/
def zipEncode (data : List Nat) : List Nat :=
  zlibCompress (predEnc (evens data ++ odds data))

/-- Modelled from the spec: ZIP decode of `internal_zip.c` — generic
decompress at the declared size, invert the predictor, then re-interleave
the byte planes. -/
def zipDecode (n : Nat) (p : List Nat) : Except ErrorCode (List Nat) :=
  (zlibDecompress n p).map fun rl =>
    let planes := predDec rl
    interleave (planes.take ((n + 1) / 2)) (planes.drop ((n + 1) / 2))

theorem length_evens (l : List Nat) : (evens l).length = (l.length + 1) / 2 := by
  induction l using evens.induct with
  | case1 => simp [evens]
  | case2 x => simp [evens]
  | case3 x y rest ih => simp only [evens, List.length_cons, ih]; omega

theorem length_odds (l : List Nat) : (odds l).length = l.length / 2 := by
  induction l using odds.induct with
  | case1 => simp [odds]
  | case2 x => simp [odds]
  | case3 x y rest ih => simp only [odds, List.length_cons, ih]; omega

theorem interleave_evens_odds (l : List Nat) :
    interleave (evens l) (odds l) = l := by
  induction l using evens.induct with
  | case1 => rfl
  | case2 x => rfl
  | case3 x y rest ih => simp only [evens, odds, interleave, ih]

theorem mem_evens_of_mem {x : Nat} (l : List Nat) (h : x ∈ evens l) : x ∈ l := by
  induction l using evens.induct with
  | case1 => simp [evens] at h
  | case2 y => simpa [evens] using h
  | case3 y z rest ih =>
    simp only [evens, List.mem_cons] at h ⊢
    rcases h with h | h
    · exact Or.inl h
    · exact Or.inr (Or.inr (ih h))

theorem mem_odds_of_mem {x : Nat} (l : List Nat) (h : x ∈ odds l) : x ∈ l := by
  induction l using odds.induct with
  | case1 => simp [odds] at h
  | case2 y => simp [odds] at h
  | case3 y z rest ih =>
    simp only [odds, List.mem_cons] at h ⊢
    rcases h with h | h
    · exact Or.inr (Or.inl h)
    · exact Or.inr (Or.inr (ih h))

theorem deltaGo_length (prev : Nat) (l : List Nat) :
    (deltaGo prev l).length = l.length := by
  induction l generalizing prev with
  | nil => rfl
  | cons x xs ih => simp [deltaGo, ih]

theorem predEnc_length (l : List Nat) : (predEnc l).length = l.length := by
  cases l with
  | nil => rfl
  | cons x xs => simp [predEnc, deltaGo_length]

theorem undeltaGo_deltaGo (l : List Nat) :
    ∀ prev : Nat, prev < 256 → (∀ x ∈ l, x < 256) →
      undeltaGo prev (deltaGo prev l) = l := by
  induction l with
  | nil => intro prev _ _; rfl
  | cons x xs ih =>
    intro prev hprev hwf
    have hx : x < 256 := hwf x (List.mem_cons_self x xs)
    have hstep : (prev + (x + 256 - prev % 256) % 256) % 256 = x := by omega
    simp only [deltaGo, undeltaGo, hstep]
    exact congrArg (x :: ·)
      (ih x hx (fun y hy => hwf y (List.mem_cons_of_mem x hy)))

theorem predDec_predEnc (l : List Nat) (hwf : ∀ x ∈ l, x < 256) :
    predDec (predEnc l) = l := by
  cases l with
  | nil => rfl
  | cons x xs =>
    simp only [predEnc, predDec]
    exact congrArg (x :: ·)
      (undeltaGo_deltaGo xs x (hwf x (List.mem_cons_self x xs))
        (fun y hy => hwf y (List.mem_cons_of_mem x hy)))

theorem zipReordered_length (data : List Nat) :
    (predEnc (evens data ++ odds data)).length = data.length := by
  rw [predEnc_length, List.length_append, length_evens, length_odds]
  omega

/-- ZIP round-trip: decoding at the declared size inverts the encoder on
byte-valued data. -/
theorem zipDecode_zipEncode (data : List Nat) (hwf : ∀ x ∈ data, x < 256) :
    zipDecode data.length (zipEncode data) = .ok data := by
  have hplen : (predEnc (evens data ++ odds data)).length = data.length :=
    zipReordered_length data
  rw [zipDecode, zipEncode]
  rw [show data.length = (predEnc (evens data ++ odds data)).length from hplen.symm]
  rw [zlibDecompress_zlibCompress]
  simp only [Except.map]
  rw [hplen]
  have hwfre : ∀ x ∈ evens data ++ odds data, x < 256 := by
    intro x hx
    rcases List.mem_append.mp hx with h | h
    · exact hwf x (mem_evens_of_mem data h)
    · exact hwf x (mem_odds_of_mem data h)
  rw [predDec_predEnc _ hwfre]
  have htake : (evens data ++ odds data).take ((data.length + 1) / 2)
      = evens data := by
    rw [show (data.length + 1) / 2 = (evens data).length by rw [length_evens]]
    exact List.take_left _ _
  have hdrop : (evens data ++ odds data).drop ((data.length + 1) / 2)
      = odds data := by
    rw [show (data.length + 1) / 2 = (evens data).length by rw [length_evens]]
    exact List.drop_left _ _
  rw [htake, hdrop, interleave_evens_odds]

/-! ## None codec (`compression.c` dispatch, missing from the tree)

Modelled from the spec: "raw copy; exists as the degenerate baseline for
correctness testing of the pipeline." Decode checks the payload length
against the declared uncompressed size. -/

/-- Modelled from the spec: the no-compression encode — the raw bytes. -/
def noneEncode (data : List Nat) : List Nat := data

/-- Modelled from the spec: the no-compression decode — the raw bytes,
rejected as corrupt when the payload length disagrees with the declared
uncompressed size. -/
def noneDecode (n : Nat) (p : List Nat) : Except ErrorCode (List Nat) :=
  if p.length = n then .ok p else .error .corruptChunk

theorem noneDecode_noneEncode (data : List Nat) :
    noneDecode data.length (noneEncode data) = .ok data := by
  simp [noneDecode, noneEncode]

/-! ## PXR24 codec (`internal_pxr24.c`, missing from the tree)

Modelled from the spec: "lossy 24-bit float truncation (drops the low 8
mantissa bits of 32-bit floats ...) then generic compression; decode
reconstructs full-width values with the dropped bits zeroed." Each 32-bit
float bit pattern is truncated to its high 24 bits, serialized as three
bytes, and the whole block passed through the generic compressor; decode
inverts the container and shifts each sample back with the dropped low
byte zeroed. -/

/-- Modelled from the spec: PXR24 sample truncation — drop the low 8 bits
of the 32-bit float bit pattern. -/
def pxr24EncodeSample (x : Nat) : Nat := x % 2 ^ 32 / 2 ^ 8

/-- Modelled from the spec: PXR24 sample reconstruction — shift the 24-bit
value back to full width, the dropped 8 bits zeroed. -/
def pxr24DecodeSample (y : Nat) : Nat := y * 2 ^ 8

/-- Little-endian 3-byte serialization of a 24-bit value. -/
def le24 (v : Nat) : List Nat := [v % 256, v / 256 % 256, v / 2 ^ 16 % 256]

/-- Parse a byte stream as consecutive little-endian 24-bit values. -/
def bytesTo24 : List Nat → List Nat
  | a :: b :: c :: rest => (a + 256 * b + 2 ^ 16 * c) :: bytesTo24 rest
  | _ => []

/-- Modelled from the spec: PXR24 encode of a float channel block —
truncate each sample to 24 bits, serialize, and compress. -/
def pxr24Encode (xs : List Nat) : List Nat :=
  zlibCompress (((xs.map pxr24EncodeSample).map le24).flatten)

/-- Modelled from the spec: PXR24 decode of a float channel block —
decompress at three bytes per sample, parse the 24-bit values, and
reconstruct full-width samples with the dropped bits zeroed. -/
def pxr24Decode (n : Nat) (p : List Nat) : Except ErrorCode (List Nat) :=
  (zlibDecompress (3 * n) p).map fun body =>
    (bytesTo24 body).map pxr24DecodeSample

theorem bytesTo24_le24 (ys : List Nat) (hwf : ∀ y ∈ ys, y < 2 ^ 24) :
    bytesTo24 ((ys.map le24).flatten) = ys := by
  induction ys with
  | nil => rfl
  | cons y ys ih =>
    have hy : y < 2 ^ 24 := hwf y (List.mem_cons_self y ys)
    have hys := ih (fun z hz => hwf z (List.mem_cons_of_mem y hz))
    simp only [List.map_cons, List.flatten_cons, le24, List.cons_append,
      List.nil_append]
    show (y % 256 + 256 * (y / 256 % 256) + 2 ^ 16 * (y / 2 ^ 16 % 256))
        :: bytesTo24 ((ys.map le24).flatten) = y :: ys
    rw [hys]
    have hhead : y % 256 + 256 * (y / 256 % 256) + 2 ^ 16 * (y / 2 ^ 16 % 256) = y := by
      omega
    rw [hhead]

theorem le24_flatten_length (ys : List Nat) :
    ((ys.map le24).flatten).length = 3 * ys.length := by
  induction ys with
  | nil => rfl
  | cons y ys ih =>
    simp only [List.map_cons, List.flatten_cons, List.length_append, ih, le24,
      List.length_cons, List.length_nil]
    omega

/-- PXR24 round-trip: decoding the encoding reproduces the input with each
sample's low 8 mantissa bits zeroed. -/
theorem pxr24Decode_pxr24Encode (xs : List Nat) (hwf : ∀ x ∈ xs, x < 2 ^ 32) :
    pxr24Decode xs.length (pxr24Encode xs)
      = .ok (xs.map (fun x => x - x % 2 ^ 8)) := by
  rw [pxr24Decode, pxr24Encode]
  rw [show 3 * xs.length = (((xs.map pxr24EncodeSample).map le24).flatten).length by
    rw [le24_flatten_length, List.length_map]]
  rw [zlibDecompress_zlibCompress]
  simp only [Except.map]
  rw [bytesTo24_le24 _ (by
    intro y hy
    obtain ⟨x, _, rfl⟩ := List.mem_map.mp hy
    simp only [pxr24EncodeSample]
    omega)]
  rw [List.map_map]
  have hmap : xs.map (pxr24DecodeSample ∘ pxr24EncodeSample)
      = xs.map (fun x => x - x % 2 ^ 8) := by
    apply List.map_congr_left
    intro x hx
    have := hwf x hx
    simp only [Function.comp_apply, pxr24EncodeSample, pxr24DecodeSample]
    omega
  rw [hmap]

/-- Per-sample characterisation: the reconstructed sample is the original
with its low 8 bits zeroed; bit-exact when those bits were already zero. -/
theorem pxr24_sample_spec (x : Nat) (hx : x < 2 ^ 32) :
    pxr24DecodeSample (pxr24EncodeSample x) = x - x % 2 ^ 8
      ∧ pxr24DecodeSample (pxr24EncodeSample x) % 2 ^ 8 = 0
      ∧ (x % 2 ^ 8 = 0 → pxr24DecodeSample (pxr24EncodeSample x) = x) := by
  simp only [pxr24DecodeSample, pxr24EncodeSample]
  omega

/-! ## Compression variants and block sizes (`compression.c`, missing from
the tree)

Modelled from the spec: "Seven variants, selected per part by the
compression attribute; ... block size fixed per codec: 1 line for
none/RLE/ZIP-single, 16 lines for ZIP-multi/PXR24, 32 lines for
PIZ/B44/DWA." -/

/-- Modelled from the spec: the compression attribute's enum (`compression.c`),
with the ZIP variant split into its single- and multi-line forms. -/
inductive Compression where
  | none
  | rle
  | zipSingle
  | zipMulti
  | piz
  | pxr24
  | b44
  | dwa
  deriving Repr, DecidableEq

/-- Modelled from the spec: scan lines per codec block, fixed per variant
(`compression.c`). -/
def scanLinesPerChunk : Compression → Nat
  | .none => 1
  | .rle => 1
  | .zipSingle => 1
  | .zipMulti => 16
  | .pxr24 => 16
  | .piz => 32
  | .b44 => 32
  | .dwa => 32

/-! ## Mip level derivation (`part.c`, missing from the tree)

Modelled from the spec: "mipmap/ripmap level counts are derived from
rounding mode (round-up vs round-down) applied to successive halving of
the base resolution." -/

/-- Modelled from the spec: the tile descriptor's rounding mode. -/
inductive LevelRoundingMode where
  | roundDown
  | roundUp
  deriving Repr, DecidableEq

/-- One halving step of the level size under the given rounding mode. -/
def halveLevel : LevelRoundingMode → Nat → Nat
  | .roundDown, n => n / 2
  | .roundUp, n => (n + 1) / 2

/-- Modelled from the spec: count the levels produced by successively
halving `n` down to 1 (`part.c`). `fuel` bounds the halvings; the wrapper
passes the base size, which always suffices. -/
def levelCountF : Nat → LevelRoundingMode → Nat → Nat
  | 0, _, _ => 0
  | _ + 1, _, 0 => 0
  | _ + 1, _, 1 => 1
  | fuel + 1, rm, n + 2 => 1 + levelCountF fuel rm (halveLevel rm (n + 2))

/-- Modelled from the spec: the mipmap level count of a tiled part with
base resolution `w × h` (`part.c`): successive halving of the larger
dimension under the part's rounding mode. -/
def mipLevelCount (rm : LevelRoundingMode) (w h : Nat) : Nat :=
  levelCountF (max w h) rm (max w h)

/-! ## Attribute model and header serialization (`attributes.c`,
`parse_header.c`, `write_header.c`, `opaque.c`, missing from the tree)

Modelled from the spec, §4.1: "Serialization format per attribute:
null-terminated name, null-terminated type-name string, 4-byte
little-endian length, raw value bytes." The header is the attribute
sequence terminated by the zero-length-attribute sentinel (a zero byte
where the next name would begin, §4.2). -/

/-- An attribute as stored in a header: name, type-name string, and raw
value bytes (typed interpretation happens separately, see
`interpretAttr`). -/
structure Attr where
  name : List Nat
  typeName : List Nat
  value : List Nat
  deriving Repr, DecidableEq

/-- Little-endian 4-byte serialization. -/
def le32 (v : Nat) : List Nat :=
  [v % 256, v / 2 ^ 8 % 256, v / 2 ^ 16 % 256, v / 2 ^ 24 % 256]

/-- Read a little-endian 4-byte value from the head of a byte stream. -/
def readLE32 : List Nat → Option (Nat × List Nat)
  | a :: b :: c :: d :: rest => some (a + 2 ^ 8 * b + 2 ^ 16 * c + 2 ^ 24 * d, rest)
  | _ => Option.none

/-- Split a byte stream at its first zero byte (the null terminator). -/
def splitAtNull : List Nat → Option (List Nat × List Nat)
  | [] => Option.none
  | b :: rest =>
    if b = 0 then some ([], rest)
    else (splitAtNull rest).map (fun pr => (b :: pr.1, pr.2))

/-- Modelled from the spec: serialize one attribute (`write_header.c`) —
null-terminated name, null-terminated type name, 4-byte little-endian
length, raw value bytes. -/
def serializeAttr (a : Attr) : List Nat :=
  a.name ++ [0] ++ a.typeName ++ [0] ++ le32 a.value.length ++ a.value

/-- Modelled from the spec: serialize a header (`write_header.c`) — the
attributes in order, then the end-of-header sentinel byte. -/
def serializeHeader (attrs : List Attr) : List Nat :=
  (attrs.map serializeAttr).flatten ++ [0]

/-- Modelled from the spec: parse one attribute (`parse_header.c`) —
name and type name up to their null terminators, the 4-byte value length,
then that many raw value bytes, which are preserved unchanged whatever the
type name says. -/
def parseAttrBytes (bytes : List Nat) : Option (Attr × List Nat) :=
  (splitAtNull bytes).bind fun pr₁ =>
    (splitAtNull pr₁.2).bind fun pr₂ =>
      (readLE32 pr₂.2).bind fun pr₃ =>
        if pr₃.2.length < pr₃.1 then Option.none
        else some (⟨pr₁.1, pr₂.1, pr₃.2.take pr₃.1⟩, pr₃.2.drop pr₃.1)

/-- Modelled from the spec: the header parse loop of `parse_header.c`. A
zero byte where a name would begin is the end-of-header sentinel; `fuel`
bounds the attribute count and the wrapper passes the byte count, which
always suffices since each attribute consumes at least one byte. -/
def parseHeaderF : Nat → List Nat → Except ErrorCode (List Attr)
  | _, [] => .error .malformedHeader
  | 0, b :: _ => if b = 0 then .ok [] else .error .malformedHeader
  | fuel + 1, b :: bytes =>
    if b = 0 then .ok []
    else
      match parseAttrBytes (b :: bytes) with
      | Option.none => .error .malformedAttribute
      | some (a, rest) => (parseHeaderF fuel rest).map (a :: ·)

/-- Modelled from the spec: header parse entry point. -/
def parseHeader (bytes : List Nat) : Except ErrorCode (List Attr) :=
  parseHeaderF bytes.length bytes

theorem splitAtNull_append (name rest : List Nat) (h : 0 ∉ name) :
    splitAtNull (name ++ 0 :: rest) = some (name, rest) := by
  induction name with
  | nil => simp [splitAtNull]
  | cons b t ih =>
    have hb : b ≠ 0 := fun hc => h (hc ▸ List.mem_cons_self b t)
    have ht : 0 ∉ t := fun hc => h (List.mem_cons_of_mem b hc)
    rw [List.cons_append, splitAtNull, if_neg hb, ih ht]
    rfl

theorem readLE32_le32 (v : Nat) (rest : List Nat) (hv : v < 2 ^ 32) :
    readLE32 (le32 v ++ rest) = some (v, rest) := by
  show readLE32 (v % 256 :: v / 2 ^ 8 % 256 :: v / 2 ^ 16 % 256
      :: v / 2 ^ 24 % 256 :: rest) = some (v, rest)
  rw [readLE32]
  have hval : v % 256 + 2 ^ 8 * (v / 2 ^ 8 % 256) + 2 ^ 16 * (v / 2 ^ 16 % 256)
      + 2 ^ 24 * (v / 2 ^ 24 % 256) = v := by omega
  rw [hval]

/-- Basic well-formedness of one attribute: parsable name and type-name
strings, and a value length that fits the 4-byte length field. -/
def validAttr (a : Attr) : Bool :=
  !a.name.isEmpty && !a.name.contains 0 && !a.typeName.contains 0
    && a.value.length < 2 ^ 32

/-- Parsing one serialized attribute from the front of a stream returns
that attribute and the remaining stream. -/
theorem parseAttrBytes_serializeAttr (a : Attr) (tail : List Nat)
    (hn0 : 0 ∉ a.name) (ht0 : 0 ∉ a.typeName)
    (hlen : a.value.length < 2 ^ 32) :
    parseAttrBytes (serializeAttr a ++ tail) = some (a, tail) := by
  obtain ⟨name, tyName, value⟩ := a
  simp only at hn0 ht0 hlen
  have hshape : serializeAttr ⟨name, tyName, value⟩ ++ tail
      = name ++ 0 :: (tyName ++ 0 :: (le32 value.length ++ (value ++ tail))) := by
    simp [serializeAttr, List.append_assoc]
  rw [hshape, parseAttrBytes, splitAtNull_append _ _ hn0]
  simp only [Option.bind]
  rw [splitAtNull_append _ _ ht0]
  simp only [Option.bind]
  rw [readLE32_le32 _ _ hlen]
  simp only [Option.bind]
  rw [if_neg (by simp only [List.length_append]; omega)]
  rw [List.take_left, List.drop_left]

theorem serializeAttr_length_pos (a : Attr) : 1 ≤ (serializeAttr a).length := by
  simp only [serializeAttr, le32, List.length_append, List.length_cons,
    List.length_nil]
  omega

theorem length_le_serializeHeader (attrs : List Attr) :
    attrs.length ≤ (serializeHeader attrs).length := by
  induction attrs with
  | nil => simp [serializeHeader]
  | cons a rest ih =>
    have hser : serializeHeader (a :: rest)
        = serializeAttr a ++ serializeHeader rest := by
      simp [serializeHeader, List.append_assoc]
    rw [hser, List.length_append, List.length_cons]
    have := serializeAttr_length_pos a
    omega

/-- Fuel-generic header round-trip: parsing the serialization of a
well-formed attribute list returns exactly that list. -/
theorem parseHeaderF_serializeHeader (attrs : List Attr) :
    ∀ fuel, attrs.length ≤ fuel →
      (∀ a ∈ attrs, a.name ≠ [] ∧ 0 ∉ a.name ∧ 0 ∉ a.typeName
        ∧ a.value.length < 2 ^ 32) →
      parseHeaderF fuel (serializeHeader attrs) = .ok attrs := by
  induction attrs with
  | nil =>
    intro fuel _ _
    cases fuel <;> rfl
  | cons a rest ih =>
    intro fuel hfuel hva
    simp only [List.length_cons] at hfuel
    obtain ⟨f, rfl⟩ : ∃ f, fuel = f + 1 := ⟨fuel - 1, by omega⟩
    have hser : serializeHeader (a :: rest)
        = serializeAttr a ++ serializeHeader rest := by
      simp [serializeHeader, List.append_assoc]
    obtain ⟨h1, h2, h3, h4⟩ := hva a (List.mem_cons_self a rest)
    cases hn : a.name with
    | nil => exact absurd hn h1
    | cons b t =>
      have hb : b ≠ 0 := by
        intro hc
        apply h2
        rw [hn, hc]
        exact List.mem_cons_self 0 t
      have hcons : serializeAttr a ++ serializeHeader rest
          = b :: (t ++ 0 :: (a.typeName ++ 0
              :: (le32 a.value.length ++ (a.value ++ serializeHeader rest)))) := by
        simp [serializeAttr, hn, List.append_assoc]
      rw [hser, hcons, parseHeaderF, if_neg hb, ← hcons]
      rw [parseAttrBytes_serializeAttr a _ h2 h3 h4]
      show (parseHeaderF f (serializeHeader rest)).map (a :: ·) = .ok (a :: rest)
      rw [ih f (by omega) (fun x hx => hva x (List.mem_cons_of_mem a hx))]
      rfl

/-- Header round-trip at the entry points. -/
theorem parseHeader_serializeHeader (attrs : List Attr)
    (hva : ∀ a ∈ attrs, a.name ≠ [] ∧ 0 ∉ a.name ∧ 0 ∉ a.typeName
      ∧ a.value.length < 2 ^ 32) :
    parseHeader (serializeHeader attrs) = .ok attrs :=
  parseHeaderF_serializeHeader attrs (serializeHeader attrs).length
    (length_le_serializeHeader attrs) hva

/-! ## Typed attribute interpretation (`attributes.c`, `std_attr.c`,
`opaque.c`, missing from the tree)

Modelled from the spec, §4.1 and §9: attribute values form a closed sum
over the known type registry, with an opaque-blob fallback variant that
preserves the raw bytes of any attribute whose serialized type name is not
registered (forward compatibility). -/

/-- ASCII bytes of the attribute names and type names the part model
needs. -/
def nmChannels : List Nat := [99, 104, 97, 110, 110, 101, 108, 115]

def nmCompression : List Nat := [99, 111, 109, 112, 114, 101, 115, 115, 105, 111, 110]

def nmDataWindow : List Nat := [100, 97, 116, 97, 87, 105, 110, 100, 111, 119]

def nmDisplayWindow : List Nat :=
  [100, 105, 115, 112, 108, 97, 121, 87, 105, 110, 100, 111, 119]

def nmLineOrder : List Nat := [108, 105, 110, 101, 79, 114, 100, 101, 114]

def nmPixelAspectRatio : List Nat :=
  [112, 105, 120, 101, 108, 65, 115, 112, 101, 99, 116, 82, 97, 116, 105, 111]

def tyInt : List Nat := [105, 110, 116]

def tyFloat : List Nat := [102, 108, 111, 97, 116]

def tyDouble : List Nat := [100, 111, 117, 98, 108, 101]

def tyString : List Nat := [115, 116, 114, 105, 110, 103]

def tyBox2i : List Nat := [98, 111, 120, 50, 105]

def tyBox2f : List Nat := [98, 111, 120, 50, 102]

def tyV2i : List Nat := [118, 50, 105]

def tyV2f : List Nat := [118, 50, 102]

def tyChlist : List Nat := [99, 104, 108, 105, 115, 116]

def tyCompression : List Nat := nmCompression

def tyLineOrder : List Nat := nmLineOrder

def tyPreview : List Nat := [112, 114, 101, 118, 105, 101, 119]

def tyStringVector : List Nat :=
  [115, 116, 114, 105, 110, 103, 118, 101, 99, 116, 111, 114]

/-- Modelled from the spec: the fixed registry of known serialized type
names (§3: "type tag must match one of a fixed registry or be treated as
opaque blob"). -/
def knownTypeNames : List (List Nat) :=
  [tyInt, tyFloat, tyDouble, tyString, tyBox2i, tyBox2f, tyV2i, tyV2f,
   tyChlist, tyCompression, tyLineOrder, tyPreview, tyStringVector]

/-- Two's-complement reading of a 32-bit little-endian value. -/
def toInt32 (v : Nat) : Int :=
  if v < 2 ^ 31 then (v : Int) else (v : Int) - 2 ^ 32

/-- Parse a 16-byte box2i value: xMin, yMin, xMax, yMax as signed 32-bit
little-endian integers. -/
def parseBox2i (v : List Nat) : Option (Int × Int × Int × Int) :=
  match readLE32 v with
  | some (x0, r1) =>
    match readLE32 r1 with
    | some (y0, r2) =>
      match readLE32 r2 with
      | some (x1, r3) =>
        match readLE32 r3 with
        | some (y1, []) => some (toInt32 x0, toInt32 y0, toInt32 x1, toInt32 y1)
        | _ => Option.none
      | _ => Option.none
    | _ => Option.none
  | _ => Option.none

/-- A box2i is non-empty when min ≤ max on both axes (§3 Part invariant). -/
def boxNonEmpty (b : Int × Int × Int × Int) : Bool :=
  b.1 ≤ b.2.2.1 && b.2.1 ≤ b.2.2.2

/-- Modelled from the spec: the compression attribute's on-disk byte,
mapped to the codec variant; bytes outside the known enum are rejected
(`UnsupportedCompression`). -/
def compressionOfByte : Nat → Option Compression
  | 0 => some .none
  | 1 => some .rle
  | 2 => some .zipSingle
  | 3 => some .zipMulti
  | 4 => some .piz
  | 5 => some .pxr24
  | 6 => some .b44
  | 7 => some .b44
  | 8 => some .dwa
  | 9 => some .dwa
  | _ => Option.none

/-- Modelled from the spec: the closed attribute-value sum of §9 — a
decoded box2i, a decoded compression enum, any other registered type kept
with its raw bytes, or the opaque-blob fallback for an unregistered type
name, preserving the raw value bytes (`opaque.c`). -/
inductive AttrValue where
  | box2iVal (xMin yMin xMax yMax : Int)
  | compressionVal (c : Compression)
  | registered (typeName raw : List Nat)
  | blob (raw : List Nat)
  deriving Repr, DecidableEq

/-- Modelled from the spec: typed interpretation of a parsed attribute
(`attributes.c` / `opaque.c`). A known type name is decoded (box2i and
compression are modelled in full; the remaining registered types keep
their raw bytes); an unknown type name never fails — the raw bytes are
preserved as an opaque blob. -/
def interpretAttr (a : Attr) : Except ErrorCode AttrValue :=
  if a.typeName = tyBox2i then
    match parseBox2i a.value with
    | some b => .ok (.box2iVal b.1 b.2.1 b.2.2.1 b.2.2.2)
    | Option.none => .error .malformedAttribute
  else if a.typeName = tyCompression then
    match a.value with
    | [c] =>
      match compressionOfByte c with
      | some comp => .ok (.compressionVal comp)
      | Option.none => .error .unsupportedCompression
    | _ => .error .malformedAttribute
  else if a.typeName ∈ knownTypeNames then .ok (.registered a.typeName a.value)
  else .ok (.blob a.value)

/-- Look up an attribute by name. -/
def findAttr (attrs : List Attr) (n : List Nat) : Option Attr :=
  attrs.find? (fun a => a.name == n)

/-- Modelled from the spec: the part invariants of §3 — every attribute
well-formed, attribute names unique, the required attributes present, the
data window non-empty, and the compression type a known enum value. -/
def validHeader (attrs : List Attr) : Bool :=
  attrs.all validAttr
    && ((attrs.map Attr.name).Nodup : Bool)
    && (match findAttr attrs nmDataWindow with
        | some a =>
          a.typeName == tyBox2i
            && (match parseBox2i a.value with
                | some b => boxNonEmpty b
                | Option.none => false)
        | Option.none => false)
    && (match findAttr attrs nmDisplayWindow with
        | some _ => true
        | Option.none => false)
    && (match findAttr attrs nmPixelAspectRatio with
        | some _ => true
        | Option.none => false)
    && (match findAttr attrs nmChannels with
        | some _ => true
        | Option.none => false)
    && (match findAttr attrs nmLineOrder with
        | some _ => true
        | Option.none => false)
    && (match findAttr attrs nmCompression with
        | some a =>
          a.typeName == tyCompression
            && (match a.value with
                | [c] => (compressionOfByte c).isSome
                | _ => false)
        | Option.none => false)

/-! ## PIZ codec (`internal_piz.c`, `internal_huf.c`, missing from the
tree)

Modelled from the spec: "wavelet (Haar-like) transform across scan lines
plus Huffman entropy coding on the transformed coefficients; requires a
stable canonical Huffman code construction (by symbol frequency, ties
broken by symbol value) so encode/decode of the same input is
deterministic and round-trips exactly for 16-bit half-float or integer
channels only (other pixel types unsupported — `UnsupportedPixelType`)."

The wavelet pair transform is the invertible mod-2^16 average/difference
scheme; the Huffman stage builds its code tree by repeatedly merging the
two lowest-priority entries of a queue ordered by (frequency, smallest
symbol), and the decoder rebuilds the identical tree from the frequency
table transmitted with the chunk. -/

/-- Modelled from the spec: one Haar-like wavelet pair step (mod-2^16
average/difference, `internal_piz.c`): `d` is the offset difference and
`m` the reconstruction base. -/
def wencPair (a b : Nat) : Nat × Nat :=
  ((b + (a + 2 ^ 15 + (2 ^ 16 - b % 2 ^ 16)) % 2 ^ 16 / 2) % 2 ^ 16,
   (a + 2 ^ 15 + (2 ^ 16 - b % 2 ^ 16)) % 2 ^ 16)

/-- Inverse of `wencPair`. -/
def wdecPair (m d : Nat) : Nat × Nat :=
  ((d + (m + 2 ^ 16 - d / 2 % 2 ^ 16) % 2 ^ 16 + 2 ^ 16 - 2 ^ 15) % 2 ^ 16,
   (m + 2 ^ 16 - d / 2 % 2 ^ 16) % 2 ^ 16)

theorem wdecPair_wencPair (a b : Nat) (ha : a < 2 ^ 16) (hb : b < 2 ^ 16) :
    wdecPair (wencPair a b).1 (wencPair a b).2 = (a, b) := by
  simp only [wencPair, wdecPair, Prod.mk.injEq]
  constructor <;> omega

/-- Modelled from the spec: the wavelet transform over a coefficient list,
pairing adjacent samples (`internal_piz.c`); an odd trailing sample passes
through. -/
def wavelet : List Nat → List Nat
  | [] => []
  | [x] => [x]
  | a :: b :: rest => (wencPair a b).1 :: (wencPair a b).2 :: wavelet rest

/-- Inverse wavelet transform. -/
def unwavelet : List Nat → List Nat
  | [] => []
  | [x] => [x]
  | m :: d :: rest => (wdecPair m d).1 :: (wdecPair m d).2 :: unwavelet rest

theorem unwavelet_wavelet (l : List Nat) (hwf : ∀ x ∈ l, x < 2 ^ 16) :
    unwavelet (wavelet l) = l := by
  induction l using wavelet.induct with
  | case1 => rfl
  | case2 x => rfl
  | case3 a b rest ih =>
    have ha : a < 2 ^ 16 := hwf a (by simp)
    have hb : b < 2 ^ 16 := hwf b (by simp)
    have hrest : ∀ x ∈ rest, x < 2 ^ 16 := fun x hx => hwf x (by simp [hx])
    have hpair := wdecPair_wencPair a b ha hb
    simp only [wavelet, unwavelet, ih hrest]
    rw [hpair]

/-- Huffman code tree over 16-bit coefficient symbols (`internal_huf.c`). -/
inductive HTree where
  | leaf (s : Nat)
  | node (l r : HTree)
  deriving Repr, DecidableEq

/-- The symbols at the tree's leaves. -/
def HTree.syms : HTree → List Nat
  | .leaf s => [s]
  | .node l r => l.syms ++ r.syms

/-- The smallest symbol in the tree — the tie-break key of the canonical
construction. -/
def HTree.minSym : HTree → Nat
  | .leaf s => s
  | .node l r => min l.minSym r.minSym

/-- The code of a symbol: the path to its leaf (false = left). -/
def pathOf : HTree → Nat → Option (List Bool)
  | .leaf x, s => if s = x then some [] else Option.none
  | .node l r, s =>
    match pathOf l s with
    | some p => some (false :: p)
    | Option.none => (pathOf r s).map (true :: ·)

/-- Decode one symbol by walking the tree along the bit stream. -/
def decodeSym : HTree → List Bool → Option (Nat × List Bool)
  | .leaf x, bs => some (x, bs)
  | .node _ _, [] => Option.none
  | .node l _, false :: bs => decodeSym l bs
  | .node _ r, true :: bs => decodeSym r bs

/-- Decode `n` symbols from the bit stream. -/
def decodeSyms (t : HTree) : Nat → List Bool → Option (List Nat)
  | 0, _ => some []
  | n + 1, bs =>
    match decodeSym t bs with
    | some sb => (decodeSyms t n sb.2).map (sb.1 :: ·)
    | Option.none => Option.none

/-- Encode a symbol list as the concatenation of the symbols' codes. -/
def encodeSyms (t : HTree) : List Nat → Option (List Bool)
  | [] => some []
  | s :: rest =>
    match pathOf t s with
    | some p => (encodeSyms t rest).map (p ++ ·)
    | Option.none => Option.none

theorem pathOf_isSome_of_mem (t : HTree) (s : Nat) (h : s ∈ t.syms) :
    (pathOf t s).isSome := by
  induction t with
  | leaf x =>
    simp only [HTree.syms, List.mem_singleton] at h
    simp [pathOf, h]
  | node l r ihl ihr =>
    simp only [HTree.syms, List.mem_append] at h
    rw [pathOf]
    cases hpl : pathOf l s with
    | some p => rfl
    | none =>
      rcases h with h | h
      · have := ihl h
        rw [hpl] at this
        exact absurd this (by simp)
      · obtain ⟨pr, hpr⟩ := Option.isSome_iff_exists.mp (ihr h)
        simp [hpr]

/-- Walking the decoder along a symbol's code returns that symbol and the
remaining bits. -/
theorem decodeSym_pathOf (t : HTree) (s : Nat) :
    ∀ p rest, pathOf t s = some p → decodeSym t (p ++ rest) = some (s, rest) := by
  induction t with
  | leaf x =>
    intro p rest hp
    rw [pathOf] at hp
    split at hp
    · rename_i hsx
      injection hp with hp
      subst hp hsx
      rfl
    · exact absurd hp (by simp)
  | node l r ihl ihr =>
    intro p rest hp
    rw [pathOf] at hp
    split at hp
    · rename_i pl hpl
      injection hp with hp
      subst hp
      rw [List.cons_append]
      show decodeSym l (pl ++ rest) = some (s, rest)
      exact ihl pl rest hpl
    · rename_i hpl
      obtain ⟨pr, hpr, rfl⟩ := Option.map_eq_some'.mp hp
      rw [List.cons_append]
      show decodeSym r (pr ++ rest) = some (s, rest)
      exact ihr pr rest hpr

/-- The bit-stream decoder inverts the encoder on a whole symbol list. -/
theorem decodeSyms_encodeSyms (t : HTree) :
    ∀ (data : List Nat) (bits extra : List Bool),
      encodeSyms t data = some bits →
      decodeSyms t data.length (bits ++ extra) = some data := by
  intro data
  induction data with
  | nil =>
    intro bits extra henc
    rw [encodeSyms] at henc
    injection henc with henc
    subst henc
    rfl
  | cons s rest ih =>
    intro bits extra henc
    rw [encodeSyms] at henc
    split at henc
    · rename_i p hp
      obtain ⟨bs, hbs, rfl⟩ := Option.map_eq_some'.mp henc
      rw [List.length_cons, decodeSyms, List.append_assoc,
        decodeSym_pathOf t s p (bs ++ extra) hp]
      show (decodeSyms t rest.length (bs ++ extra)).map (s :: ·)
          = some (s :: rest)
      rw [ih bs extra hbs]
      rfl
    · exact absurd henc (by simp)

theorem encodeSyms_isSome (t : HTree) (data : List Nat)
    (h : ∀ s ∈ data, (pathOf t s).isSome) : (encodeSyms t data).isSome := by
  induction data with
  | nil => rfl
  | cons s rest ih =>
    rw [encodeSyms]
    obtain ⟨p, hp⟩ := Option.isSome_iff_exists.mp (h s (List.mem_cons_self s rest))
    rw [hp]
    have := ih (fun x hx => h x (List.mem_cons_of_mem s hx))
    obtain ⟨bs, hbs⟩ := Option.isSome_iff_exists.mp this
    rw [hbs]
    rfl

/-- Queue priority: lower frequency first, ties broken by the smallest
symbol value — the canonical, deterministic ordering the spec requires. -/
def pqLE (x y : Nat × HTree) : Bool :=
  x.1 < y.1 || (x.1 == y.1 && x.2.minSym ≤ y.2.minSym)

/-- Ordered insert into the construction queue. -/
def insertPQ (x : Nat × HTree) : List (Nat × HTree) → List (Nat × HTree)
  | [] => [x]
  | y :: ys => if pqLE x y then x :: y :: ys else y :: insertPQ x ys

/-- Insertion sort of the construction queue by `pqLE`. -/
def pqSort : List (Nat × HTree) → List (Nat × HTree)
  | [] => []
  | x :: xs => insertPQ x (pqSort xs)

/-- Modelled from the spec: the canonical Huffman tree construction of
`internal_huf.c` — repeatedly merge the two lowest-priority queue entries
into a node whose weight is the sum of theirs, reinserting in order.
`fuel` bounds the merges; the wrappers pass the queue length, which always
suffices since each merge shortens the queue by one. -/
def buildTreeF : Nat → List (Nat × HTree) → Option HTree
  | _, [] => Option.none
  | _, [x] => some x.2
  | 0, _ :: _ :: _ => Option.none
  | fuel + 1, x :: y :: rest =>
    buildTreeF fuel (insertPQ (x.1 + y.1, .node x.2 y.2) rest)

theorem insertPQ_length (x : Nat × HTree) (l : List (Nat × HTree)) :
    (insertPQ x l).length = l.length + 1 := by
  induction l with
  | nil => rfl
  | cons y ys ih =>
    rw [insertPQ]
    split
    · simp
    · simp [ih]

theorem mem_insertPQ {p x : Nat × HTree} {l : List (Nat × HTree)} :
    p ∈ insertPQ x l ↔ p = x ∨ p ∈ l := by
  induction l with
  | nil => simp [insertPQ]
  | cons y ys ih =>
    rw [insertPQ]
    split
    · simp [or_comm, or_assoc, or_left_comm]
    · simp only [List.mem_cons, ih]
      tauto

theorem mem_pqSort {p : Nat × HTree} {l : List (Nat × HTree)} :
    p ∈ pqSort l ↔ p ∈ l := by
  induction l with
  | nil => simp [pqSort]
  | cons x xs ih => simp [pqSort, mem_insertPQ, ih]

theorem pqSort_length (l : List (Nat × HTree)) :
    (pqSort l).length = l.length := by
  induction l with
  | nil => rfl
  | cons x xs ih => simp [pqSort, insertPQ_length, ih]

/-- The merge loop yields a tree whenever the queue is non-empty and the
fuel covers its length. -/
theorem buildTreeF_isSome (fuel : Nat) :
    ∀ q : List (Nat × HTree), q ≠ [] → q.length ≤ fuel + 1 →
      (buildTreeF fuel q).isSome := by
  induction fuel with
  | zero =>
    intro q hne hlen
    match q with
    | [x] => rfl
    | [] => exact absurd rfl hne
  | succ f ih =>
    intro q hne hlen
    match q with
    | [] => exact absurd rfl hne
    | [x] => rfl
    | x :: y :: rest =>
      rw [buildTreeF]
      apply ih
      · intro hc
        have := congrArg List.length hc
        rw [insertPQ_length] at this
        simp at this
      · rw [insertPQ_length]
        simp only [List.length_cons] at hlen
        omega

/-- Every symbol present in some queue entry's tree survives into the
merged result. -/
theorem buildTreeF_syms (fuel : Nat) :
    ∀ (q : List (Nat × HTree)) (t : HTree), buildTreeF fuel q = some t →
      ∀ p ∈ q, ∀ s ∈ p.2.syms, s ∈ t.syms := by
  induction fuel with
  | zero =>
    intro q t hbuild p hp s hs
    match q with
    | [] => exact absurd hbuild (by simp [buildTreeF])
    | [x] =>
      rw [buildTreeF] at hbuild
      injection hbuild with hbuild
      subst hbuild
      rw [List.mem_singleton] at hp
      subst hp
      exact hs
    | _ :: _ :: _ => exact absurd hbuild (by simp [buildTreeF])
  | succ f ih =>
    intro q t hbuild p hp s hs
    match q with
    | [] => exact absurd hbuild (by simp [buildTreeF])
    | [x] =>
      rw [buildTreeF] at hbuild
      injection hbuild with hbuild
      subst hbuild
      rw [List.mem_singleton] at hp
      subst hp
      exact hs
    | x :: y :: rest =>
      rw [buildTreeF] at hbuild
      rcases List.mem_cons.mp hp with hpx | hp2
      · rw [hpx] at hs
        refine ih _ t hbuild (x.1 + y.1, .node x.2 y.2)
          (mem_insertPQ.mpr (Or.inl rfl)) s ?_
        simp only [HTree.syms, List.mem_append]
        exact Or.inl hs
      · rcases List.mem_cons.mp hp2 with hpy | hprest
        · rw [hpy] at hs
          refine ih _ t hbuild (x.1 + y.1, .node x.2 y.2)
            (mem_insertPQ.mpr (Or.inl rfl)) s ?_
          simp only [HTree.syms, List.mem_append]
          exact Or.inr hs
        · exact ih _ t hbuild p (mem_insertPQ.mpr (Or.inr hprest)) s hs

/-- Ordered insert of a symbol value. -/
def insertNat (x : Nat) : List Nat → List Nat
  | [] => [x]
  | y :: ys => if x ≤ y then x :: y :: ys else y :: insertNat x ys

/-- Insertion sort of symbol values. -/
def sortNat : List Nat → List Nat
  | [] => []
  | x :: xs => insertNat x (sortNat xs)

/-- The distinct symbols of the input in ascending order — the canonical
symbol enumeration of the frequency table. -/
def symbolsOf (data : List Nat) : List Nat := sortNat data.dedup

/-- Modelled from the spec: the frequency table transmitted with a PIZ
chunk (`internal_huf.c`): each distinct symbol, in canonical order, with
its occurrence count. -/
def freqTable (data : List Nat) : List (Nat × Nat) :=
  (symbolsOf data).map (fun s => (data.count s, s))

/-- The initial construction queue: one leaf per table entry, ordered by
(frequency, symbol value). -/
def queueOfFreqs (freqs : List (Nat × Nat)) : List (Nat × HTree) :=
  pqSort (freqs.map (fun p => (p.1, HTree.leaf p.2)))

/-- A PIZ-encoded block: the coefficient count, the transmitted frequency
table from which the decoder rebuilds the canonical tree, and the bit
stream. -/
structure PizEncoded where
  count : Nat
  freqs : List (Nat × Nat)
  bits : List Bool
  deriving Repr, DecidableEq

/-- Modelled from the spec: Huffman-encode a transformed coefficient block
(`internal_huf.c`): build the canonical tree from the frequency table and
emit each coefficient's code. -/
def pizEncodeData (w : List Nat) : Option PizEncoded :=
  match buildTreeF (queueOfFreqs (freqTable w)).length (queueOfFreqs (freqTable w)) with
  | some t => (encodeSyms t w).map (fun bits => ⟨w.length, freqTable w, bits⟩)
  | Option.none => if w.isEmpty then some ⟨0, freqTable w, []⟩ else Option.none

/-- Modelled from the spec: Huffman-decode a block (`internal_huf.c`):
rebuild the canonical tree from the transmitted frequency table — the
identical deterministic construction the encoder used — and read back the
declared number of coefficients. -/
def pizDecodeData (e : PizEncoded) : Option (List Nat) :=
  match buildTreeF (queueOfFreqs e.freqs).length (queueOfFreqs e.freqs) with
  | some t => decodeSyms t e.count e.bits
  | Option.none => if e.count = 0 then some [] else Option.none

/-- Modelled from the spec: PIZ encode of a coefficient block
(`internal_piz.c`): wavelet transform, then canonical Huffman coding. -/
def pizEncode (data : List Nat) : Option PizEncoded :=
  pizEncodeData (wavelet data)

/-- Modelled from the spec: PIZ decode (`internal_piz.c`): Huffman decode,
then the inverse wavelet transform. -/
def pizDecode (e : PizEncoded) : Option (List Nat) :=
  (pizDecodeData e).map unwavelet

theorem mem_insertNat {y x : Nat} {l : List Nat} :
    y ∈ insertNat x l ↔ y = x ∨ y ∈ l := by
  induction l with
  | nil => simp [insertNat]
  | cons z zs ih =>
    rw [insertNat]
    split
    · simp
    · simp only [List.mem_cons, ih]
      tauto

theorem mem_sortNat {y : Nat} {l : List Nat} : y ∈ sortNat l ↔ y ∈ l := by
  induction l with
  | nil => simp [sortNat]
  | cons x xs ih => simp [sortNat, mem_insertNat, ih]

theorem mem_symbolsOf {s : Nat} {data : List Nat} :
    s ∈ symbolsOf data ↔ s ∈ data := by
  rw [symbolsOf, mem_sortNat, List.mem_dedup]

/-- Every input symbol appears in some tree of the initial queue. -/
theorem mem_queueOfFreqs_freqTable {s : Nat} {data : List Nat}
    (h : s ∈ data) :
    ∃ p ∈ queueOfFreqs (freqTable data), s ∈ p.2.syms := by
  refine ⟨(data.count s, HTree.leaf s), ?_, by simp [HTree.syms]⟩
  rw [queueOfFreqs, mem_pqSort]
  exact List.mem_map.mpr ⟨(data.count s, s),
    List.mem_map.mpr ⟨s, mem_symbolsOf.mpr h, rfl⟩, rfl⟩

/-- Huffman encoding never fails. -/
theorem pizEncodeData_isSome (w : List Nat) : (pizEncodeData w).isSome := by
  rw [pizEncodeData]
  cases hw : w with
  | nil =>
    have : freqTable ([] : List Nat) = [] := rfl
    simp [this, queueOfFreqs, pqSort, buildTreeF]
  | cons s rest =>
    have hqne : queueOfFreqs (freqTable w) ≠ [] := by
      have : (s :: rest).count s ≠ 0 ∨ True := Or.inr trivial
      intro hc
      have hmem := @mem_queueOfFreqs_freqTable s w
        (by rw [hw]; exact List.mem_cons_self s rest)
      rw [hc] at hmem
      simp at hmem
    rw [← hw]
    obtain ⟨t, ht⟩ := Option.isSome_iff_exists.mp
      (buildTreeF_isSome (queueOfFreqs (freqTable w)).length
        (queueOfFreqs (freqTable w)) hqne (by omega))
    have henc : (encodeSyms t w).isSome := by
      apply encodeSyms_isSome
      intro x hx
      obtain ⟨p, hp, hsx⟩ := mem_queueOfFreqs_freqTable hx
      exact pathOf_isSome_of_mem t x
        (buildTreeF_syms _ _ t ht p hp x hsx)
    obtain ⟨bits, hbits⟩ := Option.isSome_iff_exists.mp henc
    rw [ht]
    show ((encodeSyms t w).map
        (fun bits => PizEncoded.mk w.length (freqTable w) bits)).isSome = true
    rw [hbits]
    rfl

/-- The Huffman layer round-trips: decoding an encoded block with its
transmitted frequency table returns the original coefficients. -/
theorem pizDecodeData_pizEncodeData (w : List Nat) (e : PizEncoded)
    (henc : pizEncodeData w = some e) : pizDecodeData e = some w := by
  rw [pizEncodeData] at henc
  cases hbuild : buildTreeF (queueOfFreqs (freqTable w)).length
      (queueOfFreqs (freqTable w)) with
  | some t =>
    rw [hbuild] at henc
    obtain ⟨bits, hbits, he⟩ := Option.map_eq_some'.mp henc
    subst he
    rw [pizDecodeData]
    simp only
    rw [hbuild]
    have := decodeSyms_encodeSyms t w bits [] hbits
    rw [List.append_nil] at this
    exact this
  | none =>
    rw [hbuild] at henc
    cases hw : w with
    | cons s rest =>
      rw [hw] at henc
      simp at henc
    | nil =>
      rw [hw] at henc
      simp only [List.isEmpty_nil, if_pos] at henc
      injection henc with henc
      subst henc
      rw [pizDecodeData]
      simp only
      rw [← hw, hbuild]
      rw [hw]
      rfl

/-- PIZ round-trip on 16-bit coefficient data. -/
theorem pizDecode_pizEncode (data : List Nat) (hwf : ∀ x ∈ data, x < 2 ^ 16)
    (e : PizEncoded) (henc : pizEncode data = some e) :
    pizDecode e = some data := by
  rw [pizDecode, pizDecodeData_pizEncodeData _ _ henc]
  rw [Option.map_some', unwavelet_wavelet data hwf]

/-- Modelled from the spec: a channel's pixel type (§3 Data Model:
"pixel type (uint32/half/float)"). -/
inductive PixelType where
  | uint
  | half
  | float
  deriving Repr, DecidableEq

/-- Bit width of a pixel type; `half` is the only 16-bit type. -/
def PixelType.bitWidth : PixelType → Nat
  | .uint => 32
  | .half => 16
  | .float => 32

/-- A channel's sample block handed to the PIZ codec: its pixel type and
its samples as bit patterns. -/
structure Channel where
  pixelType : PixelType
  data : List Nat
  deriving Repr, DecidableEq

/-- Modelled from the spec: the PIZ channel entry point — channels whose
pixel type is not 16-bit are rejected with `UnsupportedPixelType`
(`internal_piz.c`). -/
def pizEncodeChannel (ch : Channel) : Except ErrorCode PizEncoded :=
  match ch.pixelType with
  | .half =>
    match pizEncode ch.data with
    | some e => .ok e
    | Option.none => .error .corruptChunk
  | _ => .error .unsupportedPixelType

/-- Modelled from the spec: PIZ channel decode. -/
def pizDecodeChannel (e : PizEncoded) : Except ErrorCode (List Nat) :=
  match pizDecode e with
  | some w => .ok w
  | Option.none => .error .corruptChunk

theorem pizEncodeChannel_half (ch : Channel) (hty : ch.pixelType = .half)
    (hwf : ∀ x ∈ ch.data, x < 2 ^ 16) :
    ∃ e, pizEncodeChannel ch = .ok e ∧ pizDecodeChannel e = .ok ch.data := by
  obtain ⟨e, he⟩ := Option.isSome_iff_exists.mp (pizEncodeData_isSome (wavelet ch.data))
  have hpe : pizEncode ch.data = some e := he
  refine ⟨e, ?_, ?_⟩
  · rw [pizEncodeChannel, hty]
    show (match pizEncode ch.data with
      | some e => Except.ok e
      | Option.none => Except.error ErrorCode.corruptChunk) = Except.ok e
    rw [hpe]
  · rw [pizDecodeChannel, pizDecode_pizEncode ch.data hwf e hpe]

theorem pizEncodeChannel_nonHalf (ch : Channel) (hty : ch.pixelType ≠ .half) :
    pizEncodeChannel ch = .error .unsupportedPixelType := by
  rw [pizEncodeChannel]
  cases hpt : ch.pixelType with
  | half => exact absurd hpt hty
  | uint => rfl
  | float => rfl

/-! ## Chunk-level file model (`chunk.c`, `decoding.c`, missing from the
tree)

Modelled from the spec: chunks are independently addressable compressed
units; "a chunk whose decode fails (checksum mismatch, truncated data,
decompressed size mismatch) yields `CorruptChunk` scoped to that chunk"
and "a single corrupt chunk must not prevent enumeration of all other
valid chunks in the same file" (§4.4, §7). The model covers the lossless
codec variants. -/

/-- A chunk record: its codec, the declared uncompressed size, and the
compressed payload. -/
structure Chunk where
  compression : Compression
  uncompressedSize : Nat
  payload : List Nat
  deriving Repr, DecidableEq

/-- Scope a codec failure to the chunk, as the spec's failure policy
requires. -/
def toCorrupt : Except ErrorCode (List Nat) → Except ErrorCode (List Nat)
  | .ok x => .ok x
  | .error _ => .error .corruptChunk

/-- Modelled from the spec: the write-path encode of a lossless chunk
(`encoding.c` dispatch over `compression.c`). -/
def losslessEncode : Compression → List Nat → Option (List Nat)
  | .none, d => some (noneEncode d)
  | .rle, d => some (rleEncode d)
  | .zipSingle, d => some (zipEncode d)
  | .zipMulti, d => some (zipEncode d)
  | .piz, _ => Option.none
  | .pxr24, _ => Option.none
  | .b44, _ => Option.none
  | .dwa, _ => Option.none

/-- Modelled from the spec: decode one chunk (`decoding.c`): dispatch on
the codec, decode at the declared uncompressed size, and report any codec
failure as `CorruptChunk` scoped to this chunk. -/
def decodeChunk (c : Chunk) : Except ErrorCode (List Nat) :=
  match c.compression with
  | .none => toCorrupt (noneDecode c.uncompressedSize c.payload)
  | .rle => toCorrupt (rleDecode c.uncompressedSize c.payload)
  | .zipSingle => toCorrupt (zipDecode c.uncompressedSize c.payload)
  | .zipMulti => toCorrupt (zipDecode c.uncompressedSize c.payload)
  | .piz => .error .unsupportedCompression
  | .pxr24 => .error .unsupportedCompression
  | .b44 => .error .unsupportedCompression
  | .dwa => .error .unsupportedCompression

/-- A file as the decoder sees it: its chunk records. -/
structure EXRFile where
  chunks : List Chunk
  deriving Repr, DecidableEq

/-- Decode every chunk of the file independently. -/
def decodeFile (f : EXRFile) : List (Except ErrorCode (List Nat)) :=
  f.chunks.map decodeChunk

/-- A chunk is well formed when its payload is the lossless encoding of
some non-empty byte data at the declared size. -/
def wellFormedChunk (c : Chunk) : Prop :=
  ∃ data : List Nat, (∀ b ∈ data, b < 256) ∧ data ≠ []
    ∧ losslessEncode c.compression data = some c.payload
    ∧ c.uncompressedSize = data.length

/-- A file is well formed when all its chunks are. -/
def wellFormedFile (f : EXRFile) : Prop :=
  ∀ c ∈ f.chunks, wellFormedChunk c

/-- Corrupt a chunk's payload by truncating it by one byte. -/
def truncateChunk (c : Chunk) : Chunk :=
  ⟨c.compression, c.uncompressedSize, c.payload.dropLast⟩

/-- Corrupt the payload of the `i`-th chunk of the file. -/
def corruptAt (f : EXRFile) (i : Nat) : EXRFile :=
  ⟨f.chunks.set i (truncateChunk (f.chunks.getD i ⟨.none, 0, []⟩))⟩

/-- Truncating a ZIP encoding by one byte always makes the decode fail. -/
theorem zipDecode_dropLast (data : List Nat) :
    zipDecode data.length ((zipEncode data).dropLast) = .error .inflateError := by
  rw [zipDecode, zipEncode]
  rw [show data.length = (predEnc (evens data ++ odds data)).length from
    (zipReordered_length data).symm]
  rw [zlibDecompress_dropLast]
  rfl

/-- A well-formed chunk decodes successfully. -/
theorem decodeChunk_wellFormed (c : Chunk) (hwf : wellFormedChunk c) :
    ∃ pixels, decodeChunk c = .ok pixels := by
  obtain ⟨comp, n, payload⟩ := c
  obtain ⟨data, hbytes, hne, henc, hsize⟩ := hwf
  simp only at henc hsize
  subst hsize
  refine ⟨data, ?_⟩
  cases comp with
  | none =>
    rw [losslessEncode] at henc
    injection henc with henc
    show toCorrupt (noneDecode data.length payload) = _
    rw [← henc, noneDecode_noneEncode]
    rfl
  | rle =>
    rw [losslessEncode] at henc
    injection henc with henc
    show toCorrupt (rleDecode data.length payload) = _
    rw [← henc, rleDecode_rleEncode]
    rfl
  | zipSingle =>
    rw [losslessEncode] at henc
    injection henc with henc
    show toCorrupt (zipDecode data.length payload) = _
    rw [← henc, zipDecode_zipEncode data hbytes]
    rfl
  | zipMulti =>
    rw [losslessEncode] at henc
    injection henc with henc
    show toCorrupt (zipDecode data.length payload) = _
    rw [← henc, zipDecode_zipEncode data hbytes]
    rfl
  | piz => rw [losslessEncode] at henc; exact Option.noConfusion henc
  | pxr24 => rw [losslessEncode] at henc; exact Option.noConfusion henc
  | b44 => rw [losslessEncode] at henc; exact Option.noConfusion henc
  | dwa => rw [losslessEncode] at henc; exact Option.noConfusion henc

/-- Truncating a well-formed chunk's payload by one byte makes its decode
fail with `CorruptChunk`. -/
theorem decodeChunk_truncate (c : Chunk) (hwf : wellFormedChunk c) :
    decodeChunk (truncateChunk c) = .error .corruptChunk := by
  obtain ⟨comp, n, payload⟩ := c
  obtain ⟨data, hbytes, hne, henc, hsize⟩ := hwf
  simp only at henc hsize
  subst hsize
  have hlen1 : 1 ≤ data.length := by
    cases data with
    | nil => exact absurd rfl hne
    | cons x xs => simp
  cases comp with
  | none =>
    rw [losslessEncode] at henc
    injection henc with henc
    show toCorrupt (noneDecode data.length payload.dropLast) = _
    rw [← henc]
    rw [noneDecode, if_neg (by
      rw [List.length_dropLast]
      show ¬(noneEncode data).length - 1 = data.length
      rw [noneEncode]
      omega)]
    rfl
  | rle =>
    rw [losslessEncode] at henc
    injection henc with henc
    show toCorrupt (rleDecode data.length payload.dropLast) = _
    rw [← henc]
    show toCorrupt (rleDecodeF data.length data.length
      ((rleEncodeF data.length data).dropLast)) = _
    rw [rleDecodeF_encode_dropLast data.length data hne le_rfl]
    rfl
  | zipSingle =>
    rw [losslessEncode] at henc
    injection henc with henc
    show toCorrupt (zipDecode data.length payload.dropLast) = _
    rw [← henc, zipDecode_dropLast]
    rfl
  | zipMulti =>
    rw [losslessEncode] at henc
    injection henc with henc
    show toCorrupt (zipDecode data.length payload.dropLast) = _
    rw [← henc, zipDecode_dropLast]
    rfl
  | piz => rw [losslessEncode] at henc; exact Option.noConfusion henc
  | pxr24 => rw [losslessEncode] at henc; exact Option.noConfusion henc
  | b44 => rw [losslessEncode] at henc; exact Option.noConfusion henc
  | dwa => rw [losslessEncode] at henc; exact Option.noConfusion henc

/-! ## Scan-line float pipeline for the ZIP scenario (`encoding.c`,
`decoding.c`, `pack.c`/`unpack.c`, missing from the tree)

Modelled from the spec, §8 scenario: a single-part scan-line file with two
float channels, ZIP compression and a 4×4 data window — the pipeline
serializes the 4×4×2 float samples as little-endian 32-bit words, runs the
ZIP codec, and reassembles the floats on decode. -/

/-- Serialize float bit patterns as little-endian 32-bit words. -/
def floatsToBytes (vs : List Nat) : List Nat := (vs.map le32).flatten

/-- Parse a byte stream back into 32-bit float bit patterns. -/
def bytesToFloats : List Nat → List Nat
  | a :: b :: c :: d :: rest =>
    (a + 2 ^ 8 * b + 2 ^ 16 * c + 2 ^ 24 * d) :: bytesToFloats rest
  | _ => []

/-- Modelled from the spec: encode a scan-line block of float samples with
the ZIP codec. -/
def encodeScanlineZipFloat (pixels : List Nat) : List Nat :=
  zipEncode (floatsToBytes pixels)

/-- Modelled from the spec: decode a scan-line block of `n` float samples
with the ZIP codec. -/
def decodeScanlineZipFloat (n : Nat) (p : List Nat) : Except ErrorCode (List Nat) :=
  (zipDecode (4 * n) p).map bytesToFloats

theorem bytesToFloats_floatsToBytes (vs : List Nat)
    (hwf : ∀ v ∈ vs, v < 2 ^ 32) : bytesToFloats (floatsToBytes vs) = vs := by
  induction vs with
  | nil => rfl
  | cons v vs ih =>
    have hv : v < 2 ^ 32 := hwf v (List.mem_cons_self v vs)
    have hvs := ih (fun z hz => hwf z (List.mem_cons_of_mem v hz))
    simp only [floatsToBytes, List.map_cons, List.flatten_cons, le32,
      List.cons_append, List.nil_append] at *
    show (v % 256 + 2 ^ 8 * (v / 2 ^ 8 % 256) + 2 ^ 16 * (v / 2 ^ 16 % 256)
        + 2 ^ 24 * (v / 2 ^ 24 % 256)) :: bytesToFloats ((vs.map le32).flatten)
        = v :: vs
    rw [hvs]
    have hhead : v % 256 + 2 ^ 8 * (v / 2 ^ 8 % 256) + 2 ^ 16 * (v / 2 ^ 16 % 256)
        + 2 ^ 24 * (v / 2 ^ 24 % 256) = v := by omega
    rw [hhead]

theorem floatsToBytes_length (vs : List Nat) :
    (floatsToBytes vs).length = 4 * vs.length := by
  induction vs with
  | nil => rfl
  | cons v vs ih =>
    simp only [floatsToBytes, List.map_cons, List.flatten_cons,
      List.length_append, le32, List.length_cons, List.length_nil] at *
    omega

theorem floatsToBytes_lt (vs : List Nat) : ∀ b ∈ floatsToBytes vs, b < 256 := by
  induction vs with
  | nil => simp [floatsToBytes]
  | cons v vs ih =>
    intro b hb
    simp only [floatsToBytes, List.map_cons, List.flatten_cons, le32,
      List.cons_append, List.nil_append, List.mem_cons] at hb
    rcases hb with h | h | h | h | h
    · omega
    · omega
    · omega
    · omega
    · exact ih b h

/-- The full scan-line ZIP float pipeline round-trips bit-exactly. -/
theorem decodeScanlineZipFloat_encode (pixels : List Nat)
    (hwf : ∀ v ∈ pixels, v < 2 ^ 32) :
    decodeScanlineZipFloat pixels.length (encodeScanlineZipFloat pixels)
      = .ok pixels := by
  rw [decodeScanlineZipFloat, encodeScanlineZipFloat]
  rw [show 4 * pixels.length = (floatsToBytes pixels).length from
    (floatsToBytes_length pixels).symm]
  rw [zipDecode_zipEncode _ (floatsToBytes_lt pixels)]
  rw [Except.map]
  rw [bytesToFloats_floatsToBytes pixels hwf]

/-- The concrete 4×4×2 float sample block of the spec's scenario: 16 R
samples then 16 G samples, as IEEE-754 bit patterns. -/
def scenarioPixels : List Nat :=
  [0x3F800000, 0x40000000, 0x40400000, 0x40800000,
   0x40A00000, 0x40C00000, 0x40E00000, 0x41000000,
   0x3F000000, 0x3E800000, 0x3E000000, 0x3D800000,
   0x00000000, 0x80000000, 0x7F7FFFFF, 0x00000001,
   0x3F8CCCCD, 0x400CCCCD, 0x4059999A, 0x4093333A,
   0x42F60000, 0xC2F60000, 0x3EAAAAAB, 0xBF800000,
   0x41200000, 0x41A00000, 0x41F00000, 0x42200000,
   0x42480000, 0x42700000, 0x428C0000, 0x42A00000]

theorem validAttr_props (a : Attr) (h : validAttr a = true) :
    a.name ≠ [] ∧ 0 ∉ a.name ∧ 0 ∉ a.typeName ∧ a.value.length < 2 ^ 32 := by
  simp only [validAttr, Bool.and_eq_true, Bool.not_eq_true',
    decide_eq_true_eq] at h
  obtain ⟨⟨⟨h1, h2⟩, h3⟩, h4⟩ := h
  exact ⟨by simpa using h1, by simpa using h2, by simpa using h3, h4⟩

/-! ## The claims -/

/-- C1: for every input block X and each of the lossless codecs (none,
RLE, ZIP), decoding the result of encoding X returns X bit-exactly
(`decode(encode(X)) = X`); in particular, for a single-part scan-line part
with two float channels, ZIP compression and a 4×4 data window, the full
encode-then-decode pipeline reproduces the original 4×4×2 float sample
array exactly. -/
theorem claim_C1_lossless_roundtrip :
    (∀ X : List Nat, noneDecode X.length (noneEncode X) = .ok X)
    ∧ (∀ X : List Nat, rleDecode X.length (rleEncode X) = .ok X)
    ∧ (∀ X : List Nat, (∀ b ∈ X, b < 256) →
        zipDecode X.length (zipEncode X) = .ok X)
    ∧ decodeScanlineZipFloat 32 (encodeScanlineZipFloat scenarioPixels)
        = .ok scenarioPixels :=
  ⟨noneDecode_noneEncode, rleDecode_rleEncode, zipDecode_zipEncode,
   decodeScanlineZipFloat_encode scenarioPixels (by decide)⟩

/-- Witness for C1: the ZIP round-trip instantiated at a concrete byte
block. -/
theorem claim_C1_lossless_roundtrip_witness :
    (∀ b ∈ ([10, 200, 30, 40] : List Nat), b < 256)
    ∧ zipDecode ([10, 200, 30, 40] : List Nat).length (zipEncode [10, 200, 30, 40])
        = .ok [10, 200, 30, 40] :=
  ⟨by decide, claim_C1_lossless_roundtrip.2.2.1 [10, 200, 30, 40] (by decide)⟩

/-- C2: for every valid header (required attributes present, non-empty
data window, known compression type), parsing the bytes produced by
serializing the header yields the header back:
`parseHeader(serialize(header)) = header`. -/
theorem claim_C2_header_roundtrip (attrs : List Attr)
    (hv : validHeader attrs = true) :
    parseHeader (serializeHeader attrs) = .ok attrs := by
  apply parseHeader_serializeHeader
  intro a ha
  simp only [validHeader, Bool.and_eq_true] at hv
  exact validAttr_props a (List.all_eq_true.mp hv.1.1.1.1.1.1.1 a ha)

/-- A concrete valid header with the six required attributes. -/
def sampleHeader : List Attr :=
  [⟨nmChannels, tyChlist, [0]⟩,
   ⟨nmCompression, tyCompression, [3]⟩,
   ⟨nmDataWindow, tyBox2i, le32 0 ++ le32 0 ++ le32 3 ++ le32 3⟩,
   ⟨nmDisplayWindow, tyBox2i, le32 0 ++ le32 0 ++ le32 3 ++ le32 3⟩,
   ⟨nmLineOrder, tyLineOrder, [0]⟩,
   ⟨nmPixelAspectRatio, tyFloat, le32 1065353216⟩]

/-- Witness for C2: the round-trip at a concrete valid header. -/
theorem claim_C2_header_roundtrip_witness :
    validHeader sampleHeader = true
    ∧ parseHeader (serializeHeader sampleHeader) = .ok sampleHeader :=
  ⟨by decide, claim_C2_header_roundtrip sampleHeader (by decide)⟩

/-- C3: corrupting a single chunk's payload (truncating it by one byte)
makes that chunk's decode fail with `CorruptChunk`, while every other
chunk of the same file still decodes successfully to the same pixels as
before the corruption. -/
theorem claim_C3_corruption_scoped (f : EXRFile) (i : Nat)
    (hwf : wellFormedFile f) (hi : i < f.chunks.length) :
    (decodeFile (corruptAt f i))[i]? = some (.error .corruptChunk)
    ∧ (∀ j, j ≠ i → (decodeFile (corruptAt f i))[j]? = (decodeFile f)[j]?)
    ∧ (∀ j, j ≠ i → j < f.chunks.length →
        ∃ pixels, (decodeFile f)[j]? = some (.ok pixels)
          ∧ (decodeFile (corruptAt f i))[j]? = some (.ok pixels)) := by
  have hchunk : f.chunks.getD i ⟨.none, 0, []⟩ = f.chunks[i] :=
    List.getD_eq_getElem f.chunks _ hi
  have hwfi : wellFormedChunk f.chunks[i] :=
    hwf f.chunks[i] (List.getElem_mem hi)
  have hcorrupt : ∀ j, j ≠ i →
      (decodeFile (corruptAt f i))[j]? = (decodeFile f)[j]? := by
    intro j hj
    rw [decodeFile, decodeFile, corruptAt]
    rw [List.getElem?_map, List.getElem?_map]
    rw [List.getElem?_set_ne (Ne.symm hj)]
  refine ⟨?_, hcorrupt, ?_⟩
  · rw [decodeFile, corruptAt]
    rw [List.getElem?_map]
    rw [List.getElem?_set_eq_of_lt _ (by simpa using hi)]
    rw [Option.map_some']
    rw [hchunk, decodeChunk_truncate f.chunks[i] hwfi]
  · intro j hj hjlen
    obtain ⟨pixels, hok⟩ :=
      decodeChunk_wellFormed f.chunks[j] (hwf f.chunks[j] (List.getElem_mem hjlen))
    refine ⟨pixels, ?_, ?_⟩
    · rw [decodeFile, List.getElem?_map, List.getElem?_eq_getElem hjlen,
        Option.map_some', hok]
    · rw [hcorrupt j hj, decodeFile, List.getElem?_map,
        List.getElem?_eq_getElem hjlen, Option.map_some', hok]

/-- A concrete well-formed three-chunk file mixing the lossless codecs. -/
def sampleFile : EXRFile :=
  ⟨[⟨Compression.zipMulti, 3, zipEncode [1, 2, 3]⟩,
    ⟨Compression.none, 2, noneEncode [4, 5]⟩,
    ⟨Compression.rle, 4, rleEncode [6, 6, 6, 6]⟩]⟩

theorem sampleFile_wellFormed : wellFormedFile sampleFile := by
  intro c hc
  simp only [sampleFile, List.mem_cons, List.not_mem_nil, or_false] at hc
  rcases hc with rfl | rfl | rfl
  · exact ⟨[1, 2, 3], by decide, by decide, rfl, rfl⟩
  · exact ⟨[4, 5], by decide, by decide, rfl, rfl⟩
  · exact ⟨[6, 6, 6, 6], by decide, by decide, rfl, rfl⟩

/-- Witness for C3: corruption of the first chunk of a concrete file. -/
theorem claim_C3_corruption_scoped_witness :
    wellFormedFile sampleFile ∧ 0 < sampleFile.chunks.length
    ∧ (decodeFile (corruptAt sampleFile 0))[0]?
        = some (.error .corruptChunk) :=
  ⟨sampleFile_wellFormed, by decide,
   (claim_C3_corruption_scoped sampleFile 0 sampleFile_wellFormed (by decide)).1⟩

/-- C4: the mipmap level-count derivation is exact and deterministic —
for a tiled part with base resolution 100×100 the derived level count is
7 with round-down rounding (100, 50, 25, 12, 6, 3, 1) and 8 with round-up
rounding. -/
theorem claim_C4_mip_levels :
    mipLevelCount .roundDown 100 100 = 7 ∧ mipLevelCount .roundUp 100 100 = 8 := by
  decide

/-- C5: the number of scan lines per codec block is fixed by the
compression variant — 1 for none, RLE and single-line ZIP; 16 for
multi-line ZIP and PXR24; 32 for PIZ, B44 and DWA. -/
theorem claim_C5_block_sizes :
    scanLinesPerChunk .none = 1 ∧ scanLinesPerChunk .rle = 1
    ∧ scanLinesPerChunk .zipSingle = 1 ∧ scanLinesPerChunk .zipMulti = 16
    ∧ scanLinesPerChunk .pxr24 = 16 ∧ scanLinesPerChunk .piz = 32
    ∧ scanLinesPerChunk .b44 = 32 ∧ scanLinesPerChunk .dwa = 32 := by
  decide

/-- C6: whenever RLE decoding reaches a run token whose claimed byte
count exceeds the bytes remaining toward the declared uncompressed size,
it rejects the input with `TruncatedChunk` instead of producing more than
the declared size — both mid-stream (any remaining count) and from the
entry point. -/
theorem claim_C6_rle_overclaim :
    (∀ (fuel remaining h : Nat) (rest : List Nat), 128 ≤ h →
      remaining + 1 < h - 127 →
      rleDecodeF (fuel + 1) (remaining + 1) (h :: rest)
        = .error .truncatedChunk)
    ∧ (∀ (n h : Nat) (rest : List Nat), 1 ≤ n → 128 ≤ h → n < h - 127 →
        rleDecode n (h :: rest) = .error .truncatedChunk) := by
  constructor
  · intro fuel remaining h rest hh hover
    exact rleDecodeF_run_overclaim fuel remaining h rest hh hover
  · intro n h rest h1 h2 h3
    obtain ⟨m, rfl⟩ : ∃ m, n = m + 1 := ⟨n - 1, by omega⟩
    exact rleDecodeF_run_overclaim m m h rest h2 h3

/-- Witness for C6: a run claiming 128 bytes against a declared size of
one byte. -/
theorem claim_C6_rle_overclaim_witness :
    1 ≤ 1 ∧ 128 ≤ 255 ∧ 1 < 255 - 127
    ∧ rleDecode 1 (255 :: [9]) = .error .truncatedChunk :=
  ⟨by decide, by decide, by decide,
   claim_C6_rle_overclaim.2 1 255 [9] (by decide) (by decide) (by decide)⟩

/-- C7: PXR24 encode drops exactly the low 8 mantissa bits of each 32-bit
float sample's bit pattern and decode reconstructs a full-width value with
those 8 bits zero; hence decode(encode(X)) equals X with each sample's low
8 bits zeroed, and is bit-exact for samples whose low 8 bits are already
zero. -/
theorem claim_C7_pxr24_truncation :
    (∀ x : Nat, x < 2 ^ 32 →
      pxr24DecodeSample (pxr24EncodeSample x) = x - x % 2 ^ 8
        ∧ pxr24DecodeSample (pxr24EncodeSample x) % 2 ^ 8 = 0
        ∧ (x % 2 ^ 8 = 0 → pxr24DecodeSample (pxr24EncodeSample x) = x))
    ∧ (∀ X : List Nat, (∀ x ∈ X, x < 2 ^ 32) →
        pxr24Decode X.length (pxr24Encode X)
          = .ok (X.map (fun x => x - x % 2 ^ 8))) :=
  ⟨fun x hx => pxr24_sample_spec x hx, fun X hX => pxr24Decode_pxr24Encode X hX⟩

/-- Witness for C7: the sample law at a concrete bit pattern with
non-zero low bits. -/
theorem claim_C7_pxr24_truncation_witness :
    (0x3F800001 : Nat) < 2 ^ 32
    ∧ pxr24DecodeSample (pxr24EncodeSample 0x3F800001)
        = 0x3F800001 - 0x3F800001 % 2 ^ 8 :=
  ⟨by decide, (claim_C7_pxr24_truncation.1 0x3F800001 (by decide)).1⟩

/-- C8: an attribute whose serialized type name is not in the known type
registry is interpreted as an opaque blob preserving its raw value bytes,
and the surrounding header parse still succeeds — an unknown attribute
type name never fails the whole header. -/
theorem claim_C8_unknown_type_blob (a : Attr) (attrs : List Attr)
    (hmem : a ∈ attrs) (hunknown : a.typeName ∉ knownTypeNames)
    (hv : ∀ b ∈ attrs, validAttr b = true) :
    interpretAttr a = .ok (.blob a.value)
    ∧ parseHeader (serializeHeader attrs) = .ok attrs := by
  constructor
  · rw [interpretAttr]
    rw [if_neg (fun hc => hunknown (by rw [hc]; decide))]
    rw [if_neg (fun hc => hunknown (by rw [hc]; decide))]
    rw [if_neg hunknown]
  · exact parseHeader_serializeHeader attrs
      (fun b hb => validAttr_props b (hv b hb))

/-- A concrete attribute with an unregistered type name ("myType"). -/
def customAttr : Attr :=
  ⟨[99, 117, 115, 116, 111, 109], [109, 121, 84, 121, 112, 101], [1, 2, 3]⟩

/-- Witness for C8: the unknown-typed attribute at a concrete header. -/
theorem claim_C8_unknown_type_blob_witness :
    customAttr ∈ [customAttr] ∧ customAttr.typeName ∉ knownTypeNames
    ∧ interpretAttr customAttr = .ok (.blob customAttr.value)
    ∧ parseHeader (serializeHeader [customAttr]) = .ok [customAttr] := by
  refine ⟨by decide, by decide, ?_⟩
  exact claim_C8_unknown_type_blob customAttr [customAttr]
    (by decide) (by decide) (by decide)

/-- C9: PIZ encode and decode are deterministic — the embedding is a pure
function of the input, with the canonical Huffman construction ordered by
(frequency, smallest symbol) — and round-trip bit-exactly for 16-bit
(half) channels; for every channel of any other pixel type, whatever its
sample values, PIZ fails with `UnsupportedPixelType`. -/
theorem claim_C9_piz_deterministic_roundtrip (ch : Channel) :
    (∀ ch' : Channel, ch' = ch → pizEncodeChannel ch' = pizEncodeChannel ch)
    ∧ (ch.pixelType = .half → (∀ x ∈ ch.data, x < 2 ^ 16) →
        ∃ e, pizEncodeChannel ch = .ok e ∧ pizDecodeChannel e = .ok ch.data)
    ∧ (ch.pixelType ≠ .half →
        pizEncodeChannel ch = .error .unsupportedPixelType) :=
  ⟨fun _ h => by rw [h],
   fun hty hwf => pizEncodeChannel_half ch hty hwf,
   fun hty => pizEncodeChannel_nonHalf ch hty⟩

/-- Witness for C9: the PIZ round-trip at a concrete half channel, and the
`UnsupportedPixelType` rejection of a float channel carrying a 32-bit
sample pattern. -/
theorem claim_C9_piz_deterministic_roundtrip_witness :
    ((∀ x ∈ ([5, 5, 9, 1000] : List Nat), x < 2 ^ 16)
      ∧ ∃ e, pizEncodeChannel ⟨.half, [5, 5, 9, 1000]⟩ = .ok e
          ∧ pizDecodeChannel e = .ok [5, 5, 9, 1000])
    ∧ pizEncodeChannel ⟨.float, [0x3F800000]⟩
        = .error .unsupportedPixelType :=
  ⟨⟨by decide,
    (claim_C9_piz_deterministic_roundtrip ⟨.half, [5, 5, 9, 1000]⟩).2.1
      rfl (by decide)⟩,
   (claim_C9_piz_deterministic_roundtrip ⟨.float, [0x3F800000]⟩).2.2
     (by decide)⟩

/-- C10: the byte-stream layer of the ZIP and PXR24 codecs is the zlib
container — both decoders are the zlib decompress composed with their
post-processing, and the decompress recomputes the adler32 checksum of
the decompressed bytes, compares it with the stored trailer, and fails
with `InflateError` whenever they disagree (returning the body only when
they agree). -/
theorem claim_C10_zlib_adler :
    (∀ body trailer : List Nat, trailer.length = 4 →
      trailer ≠ be32 (adler32 body) →
      zlibDecompress body.length ([120, 156] ++ body ++ trailer)
        = .error .inflateError)
    ∧ (∀ body : List Nat,
        zlibDecompress body.length (zlibCompress body) = .ok body)
    ∧ (∀ (n : Nat) (p : List Nat), zipDecode n p
        = (zlibDecompress n p).map fun rl =>
            interleave ((predDec rl).take ((n + 1) / 2))
              ((predDec rl).drop ((n + 1) / 2)))
    ∧ (∀ (n : Nat) (p : List Nat), pxr24Decode n p
        = (zlibDecompress (3 * n) p).map fun body =>
            (bytesTo24 body).map pxr24DecodeSample) :=
  ⟨zlibDecompress_bad_adler, zlibDecompress_zlibCompress,
   fun _ _ => rfl, fun _ _ => rfl⟩

/-- Witness for C10: a tampered trailer at a concrete payload. -/
theorem claim_C10_zlib_adler_witness :
    ([0, 0, 0, 0] : List Nat).length = 4
    ∧ ([0, 0, 0, 0] : List Nat) ≠ be32 (adler32 [1, 2, 3])
    ∧ zlibDecompress ([1, 2, 3] : List Nat).length
        ([120, 156] ++ [1, 2, 3] ++ [0, 0, 0, 0]) = .error .inflateError :=
  ⟨by decide, by decide,
   claim_C10_zlib_adler.1 [1, 2, 3] [0, 0, 0, 0] (by decide) (by decide)⟩

end OpenEXR
